import Mathlib

/-!
Verification of the `jinterner` library: a shallow embedding of the interning
data model (`src/detail/mod.rs`), the optimization pass and its mappings
(`src/lib.rs`, `src/detail/mapping.rs`), the delta codec accumulators, and the
structured serializer/deserializer fragments, together with theorems about
the library's documented properties.

The external content-addressed arenas (`blazinterner` crate) are modelled by
the list of stored values in id order: `intern` appends on miss (dedup via
first match), `lookup(id)` is list indexing, `find` is index search.  `u32`
ids and 64-bit integers are modelled as `Nat`/`Int` with explicit `% 2^w`
wrapping where the code wraps; range constraints appear as hypotheses.
-/

namespace Jinterner

/-- Interned JSON value: the payload enum `IValueImpl` of `src/detail/mod.rs`
(the transparent newtype wrapper `IValue(IValueImpl)` is merged into it).
Arena references (`InternedStr`, `InternedSlice`) are modelled by their id.
`f64` stores the float as its 64-bit pattern: the spec fixes the wrapped
float's equality and total order to be `to_bits`-based.  Constructor order
matches the Rust declaration order, so the derived `Ord` matches the derived
Rust `Ord` (variant tag first, then payload). -/
inductive IValue where
  | null
  | bool (x : Bool)
  | u64 (x : Nat)
  | i64 (x : Int)
  | f64 (bits : Nat)
  | string (id : Nat)
  | array (id : Nat)
  | object (id : Nat)
deriving DecidableEq, Ord

/-- The arena triple `Jinterners` of `src/lib.rs`: string arena, array-slice
arena and object-entry-slice arena, each as the list of stored values in id
order.  An object entry is `(KeyId, IValue)` with the key the id of an
interned string (`InternedStrKey`). -/
structure Jinterners where
  string : List String
  iarray : List (List IValue)
  iobject : List (List (Nat × IValue))
deriving DecidableEq

/-- In-memory JSON tree (`serde_json::Value`), with numbers split into the
three variants the interner distinguishes and floats as bit patterns.  An
object holds the canonical content of a string-keyed `serde_json::Map`:
an association list strictly sorted by key (the `BTreeMap` order). -/
inductive Json where
  | null
  | bool (x : Bool)
  | numU (x : Nat)
  | numI (x : Int)
  | numF (bits : Nat)
  | str (s : String)
  | arr (xs : List Json)
  | obj (entries : List (String × Json))

/-- Insertion into an association list kept strictly sorted by key, replacing
an existing binding: one step of collecting an entry iterator into the
`BTreeMap` behind `serde_json::Map` (a later binding for a key wins). -/
def insertEntry : List (String × Json) → String × Json → List (String × Json)
  | [], e => [e]
  | (k', v') :: rest, (k, v) =>
    if k < k' then (k, v) :: (k', v') :: rest
    else if k = k' then (k, v) :: rest
    else (k', v') :: insertEntry rest (k, v)

/-- Collect looked-up object entries into the canonical map content, in entry
order (`.collect::<serde_json::Map<_, _>>()`). -/
def canonObj (es : List (String × Json)) : List (String × Json) :=
  es.foldl insertEntry []

/-- `IValueImpl::lookup` (`src/detail/mod.rs`): materialize the JSON tree for
a handle.  The Rust recursion is modelled with explicit `fuel`; an
out-of-range id (which may panic in Rust) and fuel exhaustion yield `none`. -/
def lookupV (J : Jinterners) : Nat → IValue → Option Json
  | 0, _ => none
  | fuel + 1, v =>
    match v with
    | .null => some .null
    | .bool x => some (.bool x)
    | .u64 x => some (.numU x)
    | .i64 x => some (.numI x)
    | .f64 x => some (.numF x)
    | .string id => (J.string[id]?).map .str
    | .array id => do
        let s ← J.iarray[id]?
        let xs ← s.mapM (lookupV J fuel)
        pure (.arr xs)
    | .object id => do
        let s ← J.iobject[id]?
        let es ← s.mapM (fun e => do
          let ks ← J.string[e.1]?
          let x ← lookupV J fuel e.2
          pure (ks, x))
        pure (.obj (canonObj es))

/-! ### Mappings (`src/detail/mapping.rs`) -/

/-- `MappingImpl`: a per-kind id mapping, either the tagged identity on `len`
ids or an explicit table `Box<[u32]>`. -/
inductive MappingImpl where
  | identity (len : Nat)
  | map (m : List Nat)
deriving DecidableEq

/-- `MappingImpl::at`.  Rust indexes the boxed slice, panicking out of range;
the out-of-range read is modelled as 0 and excluded by hypotheses. -/
def MappingImpl.at : MappingImpl → Nat → Nat
  | .identity _, i => i
  | .map m, i => m.getD i 0

/-- `MappingImpl::is_identity`: decided by the representation tag alone. -/
def MappingImpl.isIdentity : MappingImpl → Bool
  | .identity _ => true
  | .map _ => false

/-- `MappingImpl::len`. -/
def MappingImpl.len : MappingImpl → Nat
  | .identity n => n
  | .map m => m.length

/-- `MappingImpl::compose`.  The Rust code first asserts equal lengths
(panicking on mismatch); theorems carry the length hypothesis instead. -/
def MappingImpl.compose : MappingImpl → MappingImpl → MappingImpl
  | .identity n, .identity _ => .identity n
  | .map m, .identity _ => .map m
  | .identity _, .map m => .map m
  | .map l, .map r => .map (l.map (fun i => r.getD i 0))

/-- `MappingImpl::count_remapped`: how many ids move. -/
def MappingImpl.countRemapped : MappingImpl → Nat
  | .identity _ => 0
  | .map m => (m.enum.filter (fun p => p.1 ≠ p.2)).length

/-- `Mapping`: per-kind mappings for strings, arrays and objects. -/
structure Mapping where
  string : MappingImpl
  iarray : MappingImpl
  iobject : MappingImpl
deriving DecidableEq

/-- `Mapping::is_identity`. -/
def Mapping.isIdentity (m : Mapping) : Bool :=
  m.string.isIdentity && m.iarray.isIdentity && m.iobject.isIdentity

/-- `Mapping::count_remapped_strings`. -/
def Mapping.countRemappedStrings (m : Mapping) : Nat := m.string.countRemapped

/-- `Mapping::count_remapped_arrays`. -/
def Mapping.countRemappedArrays (m : Mapping) : Nat := m.iarray.countRemapped

/-- `Mapping::count_remapped_objects`. -/
def Mapping.countRemappedObjects (m : Mapping) : Nat := m.iobject.countRemapped

/-- `Mapping::map_str_key`. -/
def Mapping.mapStrKey (m : Mapping) (k : Nat) : Nat := m.string.at k

/-- `Mapping::map`: variant-preserving id rewrite. -/
def Mapping.map (m : Mapping) : IValue → IValue
  | .null => .null
  | .bool x => .bool x
  | .u64 x => .u64 x
  | .i64 x => .i64 x
  | .f64 x => .f64 x
  | .string id => .string (m.string.at id)
  | .array id => .array (m.iarray.at id)
  | .object id => .object (m.iobject.at id)

/-- `MappingStrings`: the strings-only mapping of the first optimize pass. -/
structure MappingStrings where
  string : MappingImpl
deriving DecidableEq

/-- `MappingStrings::is_identity`. -/
def MappingStrings.isIdentity (m : MappingStrings) : Bool := m.string.isIdentity

/-- `MappingStrings::map_str_key`. -/
def MappingStrings.mapStrKey (m : MappingStrings) (k : Nat) : Nat := m.string.at k

/-- `MappingStrings::map`: rewrites string ids, leaves array/object ids. -/
def MappingStrings.map (m : MappingStrings) : IValue → IValue
  | .null => .null
  | .bool x => .bool x
  | .u64 x => .u64 x
  | .i64 x => .i64 x
  | .f64 x => .f64 x
  | .string id => .string (m.string.at id)
  | .array id => .array id
  | .object id => .object id

/-- `MappingStrings::promote`. -/
def MappingStrings.promote (m : MappingStrings) (numArrays numObjects : Nat) :
    Mapping :=
  ⟨m.string, .identity numArrays, .identity numObjects⟩

/-- `MappingNoStrings`: the arrays/objects-only mapping of later passes. -/
structure MappingNoStrings where
  iarray : MappingImpl
  iobject : MappingImpl
deriving DecidableEq

/-- `MappingNoStrings::is_identity`. -/
def MappingNoStrings.isIdentity (m : MappingNoStrings) : Bool :=
  m.iarray.isIdentity && m.iobject.isIdentity

/-- `MappingNoStrings::map`: rewrites array/object ids, leaves string ids. -/
def MappingNoStrings.map (m : MappingNoStrings) : IValue → IValue
  | .null => .null
  | .bool x => .bool x
  | .u64 x => .u64 x
  | .i64 x => .i64 x
  | .f64 x => .f64 x
  | .string id => .string id
  | .array id => .array (m.iarray.at id)
  | .object id => .object (m.iobject.at id)

/-- `MappingNoStrings::promote`. -/
def MappingNoStrings.promote (m : MappingNoStrings) (numStrings : Nat) :
    Mapping :=
  ⟨.identity numStrings, m.iarray, m.iobject⟩

/-- `Mapping::compose` with the mapping of a later no-strings pass. -/
def Mapping.compose (m : Mapping) (other : MappingNoStrings) : Mapping :=
  ⟨m.string, m.iarray.compose other.iarray, m.iobject.compose other.iobject⟩

/-- `RevMappingImpl::is_identity`: every position holds its own index. -/
def isIdentityPerm (perm : List Nat) : Bool :=
  perm.enum.all (fun p => p.1 == p.2)

/-- The loop body of `RevMappingImpl::reverse`: `reverse[perm[i]] = i` for
each `i`, over a zero-initialized table. -/
def reversePerm (perm : List Nat) : List Nat :=
  (List.range perm.length).foldl (fun acc i => acc.set (perm.getD i 0) i)
    (List.replicate perm.length 0)

/-- `RevMappingImpl::reverse`: the identity shortcut, else the inverse table. -/
def reverseOf (perm : List Nat) : MappingImpl :=
  if isIdentityPerm perm then .identity perm.length
  else .map (reversePerm perm)

/-! ### Canonical orderings and the optimization pass (`src/lib.rs`) -/

/-- Stable insertion of `a` after every already-placed element that compares
`le` to it. -/
def insertStable (le : α → α → Bool) (a : α) : List α → List α
  | [] => [a]
  | b :: bs => if le b a then b :: insertStable le a bs else a :: b :: bs

/-- Stable sort by the boolean relation `le`, processing elements left to
right.  Rust's `sort_by_cached_key`/`sort_unstable_by_key` with a total
(pre)order key produce exactly this list: for a total preorder the stable
sorted order is unique, and the unstable sorts are only ever applied below
to lists whose keys are pairwise distinct. -/
def stableSortBy (le : α → α → Bool) (l : List α) : List α :=
  l.foldl (fun acc x => insertStable le x acc) []

/-- Lexicographic `≤` on code-point lists: the byte-wise `str` order of Rust
(UTF-8 byte order coincides with code-point order). -/
def charListLe : List Char → List Char → Bool
  | [], _ => true
  | _ :: _, [] => false
  | a :: as, b :: bs =>
    decide (a.toNat < b.toNat) || (decide (a.toNat = b.toNat) && charListLe as bs)

/-- The `≤` of `CustomStrOrd` (`src/lib.rs`): byte length first, then
lexicographic byte order (`len()` is the UTF-8 byte size). -/
def strLe (a b : String) : Bool :=
  decide (a.utf8ByteSize < b.utf8ByteSize) ||
    (decide (a.utf8ByteSize = b.utf8ByteSize) && charListLe a.data b.data)

/-- Lexicographic comparison of two lists from an element comparison
(the `Ord` of a Rust slice). -/
def lexCompare (cmp : α → α → Ordering) : List α → List α → Ordering
  | [], [] => .eq
  | [], _ :: _ => .lt
  | _ :: _, [] => .gt
  | a :: as, b :: bs => (cmp a b).then (lexCompare cmp as bs)

/-- The `≤` of `CustomSliceOrd` (`src/lib.rs`): length first, then
lexicographic by the element order. -/
def sliceLe (cmp : α → α → Ordering) (a b : List α) : Bool :=
  decide (a.length < b.length) ||
    (decide (a.length = b.length) && (lexCompare cmp a b).isLE)

/-- The `Ord` of an object entry `(InternedStrKey, IValue)`: key id first,
then value (the derived tuple order). -/
def entryCompare (a b : Nat × IValue) : Ordering :=
  (compare a.1 b.1).then (compare a.2 b.2)

/-- `Jinterners::optimized_mapping_strings`: stable sort of the ids
`0..len` by the custom order of the strings they denote. -/
def optimizedMappingStrings (J : Jinterners) : List Nat :=
  stableSortBy
    (fun i j => strLe (J.string.getD i "") (J.string.getD j ""))
    (List.range J.string.length)

/-- `Jinterners::optimized_mapping_arrays`. -/
def optimizedMappingArrays (J : Jinterners) : List Nat :=
  stableSortBy
    (fun i j => sliceLe compare (J.iarray.getD i []) (J.iarray.getD j []))
    (List.range J.iarray.length)

/-- `Jinterners::optimized_mapping_objects`. -/
def optimizedMappingObjects (J : Jinterners) : List Nat :=
  stableSortBy
    (fun i j => sliceLe entryCompare (J.iobject.getD i []) (J.iobject.getD j []))
    (List.range J.iobject.length)

/-- The rewritten-object resort `object.sort_unstable_by_key(|(k, _)| *k)`. -/
def sortEntries (es : List (Nat × IValue)) : List (Nat × IValue) :=
  stableSortBy (fun a b => decide (a.1 ≤ b.1)) es

/-- `Jinterners::optimize_once`: build the three reverse mappings, stop if
they are the identity, otherwise copy every arena in canonical order while
rewriting ids (and re-sorting object entries by their new keys). -/
def optimizeOnce (J : Jinterners) : Option (Jinterners × Mapping) :=
  let stringRev := optimizedMappingStrings J
  let iarrayRev := optimizedMappingArrays J
  let iobjectRev := optimizedMappingObjects J
  let mapping : Mapping :=
    ⟨reverseOf stringRev, reverseOf iarrayRev, reverseOf iobjectRev⟩
  if mapping.isIdentity then none
  else
    some (⟨stringRev.map (fun i => J.string.getD i ""),
           iarrayRev.map (fun i => (J.iarray.getD i []).map mapping.map),
           iobjectRev.map (fun i =>
             sortEntries ((J.iobject.getD i []).map
               (fun e => (mapping.mapStrKey e.1, mapping.map e.2))))⟩,
          mapping)

/-- `Jinterners::optimize_once_strings`: the strings-only pass; arrays and
objects are copied in source order with string ids rewritten, object entries
re-sorted by their new keys. -/
def optimizeOnceStrings (J : Jinterners) :
    Option (Jinterners × MappingStrings) :=
  let stringRev := optimizedMappingStrings J
  let mapping : MappingStrings := ⟨reverseOf stringRev⟩
  if mapping.isIdentity then none
  else
    some (⟨stringRev.map (fun i => J.string.getD i ""),
           J.iarray.map (fun s => s.map mapping.map),
           J.iobject.map (fun o =>
             sortEntries (o.map
               (fun e => (mapping.mapStrKey e.1, mapping.map e.2))))⟩,
          mapping)

/-- `Jinterners::optimize_once_no_strings`: the arrays/objects-only pass;
object keys are untouched, so no resort happens. -/
def optimizeOnceNoStrings (J : Jinterners) :
    Option (List (List IValue) × List (List (Nat × IValue)) × MappingNoStrings) :=
  let iarrayRev := optimizedMappingArrays J
  let iobjectRev := optimizedMappingObjects J
  let mapping : MappingNoStrings := ⟨reverseOf iarrayRev, reverseOf iobjectRev⟩
  if mapping.isIdentity then none
  else
    some (iarrayRev.map (fun i => (J.iarray.getD i []).map mapping.map),
          iobjectRev.map (fun i =>
            (J.iobject.getD i []).map (fun e => (e.1, mapping.map e.2))),
          mapping)

/-- The `loop` of `Jinterners::optimize`, with iteration counter `i` and the
running best `optimized`.  The Rust loop has no built-in bound when
`limit == None`; `fuel` bounds the modelled recursion, and exhausting it
returns the current state (the theorems below are insensitive to `fuel` once
it is positive). -/
def optimizeLoop (self : Jinterners) (limit : Option Nat) :
    Nat → Nat → Option (Jinterners × Mapping) → Option (Jinterners × Mapping)
  | 0, _, optimized => optimized
  | fuel + 1, i, optimized =>
    if limit = some i then optimized
    else
      let current := match optimized with
        | none => self
        | some (j, _) => j
      match optimizeOnceNoStrings current with
      | none => optimized
      | some (iarray, iobject, mappingNoStr) =>
        let optimized' := match optimized with
          | none =>
            some (⟨self.string, iarray, iobject⟩,
                  mappingNoStr.promote self.string.length)
          | some (j, mapping) =>
            some (⟨j.string, iarray, iobject⟩,
                  mapping.compose mappingNoStr)
        optimizeLoop self limit fuel (i + 1) optimized'

/-- `Jinterners::optimize`: `None` for a zero limit, else the strings pass
(promoted to a full mapping) followed by iterated no-strings passes. -/
def optimize (self : Jinterners) (limit : Option Nat) (fuel : Nat) :
    Option (Jinterners × Mapping) :=
  if limit = some 0 then none
  else
    optimizeLoop self limit fuel 0
      ((optimizeOnceStrings self).map (fun p =>
        (p.1, p.2.promote p.1.iarray.length p.1.iobject.length)))

/-! ### Delta codec (`src/detail/mod.rs`, `delta` module) -/

/-- `IValueDelta`: the per-variant difference.  The Rust payload types are
`{bool, i64, i64, f64, i32, i32, i32}`; the `U64` difference is a wrapping
`u64` difference cast bitwise to `i64`, and each id difference is a wrapping
`u32` difference cast bitwise to `i32`, so those are modelled by their
unsigned bit pattern (`Nat` below `2^64` resp. `2^32`); the `I64` difference
is a wrapped signed value and the `F64` difference a bit-pattern xor. -/
inductive IValueDelta where
  | null
  | bool (x : Bool)
  | u64 (x : Nat)
  | i64 (x : Int)
  | f64 (x : Nat)
  | string (x : Nat)
  | array (x : Nat)
  | object (x : Nat)
deriving DecidableEq

/-- Wrapping unsigned difference `x.wrapping_sub(u)` modulo `w`. -/
def subWrap (w x u : Nat) : Nat := (x + (w - u % w)) % w

/-- Wrapping of a signed 64-bit quantity: reduce into `[-2^63, 2^63)`. -/
def wrapI64 (z : Int) : Int := (z + 2 ^ 63) % 2 ^ 64 - 2 ^ 63

/-- `IValueAccumulator`: one running "previous value" per variant. -/
structure IValueAccumulator where
  b : Bool
  u : Nat
  i : Int
  f : Nat
  s : Nat
  a : Nat
  o : Nat
deriving DecidableEq

/-- The `Default` accumulator: `false`, zeros, `f64::from_bits(0)`. -/
def accDefault : IValueAccumulator := ⟨false, 0, 0, 0, 0, 0, 0⟩

/-- `IValueAccumulator::fold`: emit the difference to the stored previous
value of the matching variant and update it. -/
def IValueAccumulator.fold (acc : IValueAccumulator) :
    IValue → IValueDelta × IValueAccumulator
  | .null => (.null, acc)
  | .bool x => (.bool (acc.b.xor x), { acc with b := x })
  | .u64 x => (.u64 (subWrap (2 ^ 64) x acc.u), { acc with u := x })
  | .i64 x => (.i64 (wrapI64 (x - acc.i)), { acc with i := x })
  | .f64 x => (.f64 (acc.f ^^^ x), { acc with f := x })
  | .string id => (.string (subWrap (2 ^ 32) id acc.s), { acc with s := id })
  | .array id => (.array (subWrap (2 ^ 32) id acc.a), { acc with a := id })
  | .object id => (.object (subWrap (2 ^ 32) id acc.o), { acc with o := id })

/-- `IValueAccumulator::unfold`: add the difference back and update. -/
def IValueAccumulator.unfold (acc : IValueAccumulator) :
    IValueDelta → IValue × IValueAccumulator
  | .null => (.null, acc)
  | .bool d =>
    let x := acc.b.xor d
    (.bool x, { acc with b := x })
  | .u64 d =>
    let x := (acc.u + d) % 2 ^ 64
    (.u64 x, { acc with u := x })
  | .i64 d =>
    let x := wrapI64 (acc.i + d)
    (.i64 x, { acc with i := x })
  | .f64 d =>
    let x := acc.f ^^^ d
    (.f64 x, { acc with f := x })
  | .string d =>
    let x := (acc.s + d) % 2 ^ 32
    (.string x, { acc with s := x })
  | .array d =>
    let x := (acc.a + d) % 2 ^ 32
    (.array x, { acc with a := x })
  | .object d =>
    let x := (acc.o + d) % 2 ^ 32
    (.object x, { acc with o := x })

/-- `IArrayAccumulator::fold` on one slice: element-wise, threading state. -/
def foldSlice (acc : IValueAccumulator) :
    List IValue → List IValueDelta × IValueAccumulator
  | [] => ([], acc)
  | v :: vs =>
    let p := acc.fold v
    let q := foldSlice p.2 vs
    (p.1 :: q.1, q.2)

/-- `IArrayAccumulator::unfold` on one slice. -/
def unfoldSlice (acc : IValueAccumulator) :
    List IValueDelta → List IValue × IValueAccumulator
  | [] => ([], acc)
  | d :: ds =>
    let p := acc.unfold d
    let q := unfoldSlice p.2 ds
    (p.1 :: q.1, q.2)

/-- Encoding of the whole array arena: one shared accumulator across all
slices (state persists between consecutive slices). -/
def foldArrays (acc : IValueAccumulator) :
    List (List IValue) → List (List IValueDelta) × IValueAccumulator
  | [] => ([], acc)
  | s :: ss =>
    let p := foldSlice acc s
    let q := foldArrays p.2 ss
    (p.1 :: q.1, q.2)

/-- Decoding of the whole array arena. -/
def unfoldArrays (acc : IValueAccumulator) :
    List (List IValueDelta) → List (List IValue) × IValueAccumulator
  | [] => ([], acc)
  | ds :: dss =>
    let p := unfoldSlice acc ds
    let q := unfoldArrays p.2 dss
    (p.1 :: q.1, q.2)

/-- The per-key accumulator map of `IObjectAccumulator`
(`HashMap<u32, IValueAccumulator>` with `entry(k).or_default()`), as a total
function defaulting to `accDefault`. -/
def ObjAccMap := Nat → IValueAccumulator

/-- The empty (`Default`) per-key accumulator map. -/
def objAccDefault : ObjAccMap := fun _ => accDefault

/-- `IObjectAccumulator::fold` on one entry slice: the key delta chains from
the previous key *within the slice* (starting at 0), the value delta uses the
accumulator stored under the absolute key. -/
def foldObjSlice (m : ObjAccMap) (key : Nat) :
    List (Nat × IValue) → List (Nat × IValueDelta) × ObjAccMap
  | [] => ([], m)
  | (k, x) :: rest =>
    let kdiff := subWrap (2 ^ 32) k key
    let p := (m k).fold x
    let q := foldObjSlice (fun j => if j = k then p.2 else m j) k rest
    ((kdiff, p.1) :: q.1, q.2)

/-- `IObjectAccumulator::unfold` on one entry slice. -/
def unfoldObjSlice (m : ObjAccMap) (key : Nat) :
    List (Nat × IValueDelta) → List (Nat × IValue) × ObjAccMap
  | [] => ([], m)
  | (kdiff, xdiff) :: rest =>
    let k := (key + kdiff) % 2 ^ 32
    let p := (m k).unfold xdiff
    let q := unfoldObjSlice (fun j => if j = k then p.2 else m j) k rest
    ((k, p.1) :: q.1, q.2)

/-- Encoding of the whole object arena: the per-key accumulator map persists
across slices, the key chain restarts at 0 for each slice. -/
def foldObjects (m : ObjAccMap) :
    List (List (Nat × IValue)) → List (List (Nat × IValueDelta)) × ObjAccMap
  | [] => ([], m)
  | s :: ss =>
    let p := foldObjSlice m 0 s
    let q := foldObjects p.2 ss
    (p.1 :: q.1, q.2)

/-- Decoding of the whole object arena. -/
def unfoldObjects (m : ObjAccMap) :
    List (List (Nat × IValueDelta)) → List (List (Nat × IValue)) × ObjAccMap
  | [] => ([], m)
  | ds :: dss =>
    let p := unfoldObjSlice m 0 ds
    let q := unfoldObjects p.2 dss
    (p.1 :: q.1, q.2)

/-- The on-wire 3-tuple of `Serialize for DeltaEncoding<Jinterners>`:
strings raw, array and object arenas delta-encoded. -/
structure DeltaEncoded where
  string : List String
  iarray : List (List IValueDelta)
  iobject : List (List (Nat × IValueDelta))
deriving DecidableEq

/-- `DeltaEncoding` serialization: fresh accumulators for each arena kind. -/
def encodeCtx (J : Jinterners) : DeltaEncoded :=
  ⟨J.string, (foldArrays accDefault J.iarray).1,
   (foldObjects objAccDefault J.iobject).1⟩

/-- `DeltaEncoding` deserialization: fresh accumulators again. -/
def decodeCtx (e : DeltaEncoded) : Jinterners :=
  ⟨e.string, (unfoldArrays accDefault e.iarray).1,
   (unfoldObjects objAccDefault e.iobject).1⟩

/-- Machine-range constraints on an `IValue`'s payload (`u64`/`i64` width,
`f64` bit width, `u32` ids): automatic in Rust, explicit hypotheses here. -/
def IValue.inRange : IValue → Prop
  | .null => True
  | .bool _ => True
  | .u64 x => x < 2 ^ 64
  | .i64 x => -2 ^ 63 ≤ x ∧ x < 2 ^ 63
  | .f64 x => x < 2 ^ 64
  | .string id => id < 2 ^ 32
  | .array id => id < 2 ^ 32
  | .object id => id < 2 ^ 32

instance : DecidablePred IValue.inRange := fun v => by
  unfold IValue.inRange
  cases v <;> infer_instance

/-! ### Interning and the structured serializer (`src/detail/ser.rs`) -/

/-- `Arena::intern` for strings: the id of the first equal stored entry,
else append at the end (dedup on insert). -/
def internString (J : Jinterners) (s : String) : Nat × Jinterners :=
  match J.string.findIdx? (· == s) with
  | some i => (i, J)
  | none => (J.string.length, { J with string := J.string ++ [s] })

/-- `ArenaSlice::intern_copy` for array slices. -/
def internArray (J : Jinterners) (a : List IValue) : Nat × Jinterners :=
  match J.iarray.findIdx? (· == a) with
  | some i => (i, J)
  | none => (J.iarray.length, { J with iarray := J.iarray ++ [a] })

/-- `ArenaSlice::intern_copy`/`intern_array` for object-entry slices. -/
def internObject (J : Jinterners) (o : List (Nat × IValue)) :
    Nat × Jinterners :=
  match J.iobject.findIdx? (· == o) with
  | some i => (i, J)
  | none => (J.iobject.length, { J with iobject := J.iobject ++ [o] })

/-- Key interning of a collected map/object: intern each key string in entry
order keeping the (already serialized) values, as done by
`ObjectKeySerializer`/`IValueImpl::from`'s object case. -/
def internKeys (J : Jinterners) :
    List (String × IValue) → List (Nat × IValue) × Jinterners
  | [] => ([], J)
  | (k, v) :: rest =>
    let p := internString J k
    let q := internKeys p.2 rest
    ((p.1, v) :: q.1, q.2)

/-- Object finalization shared by `IValueImpl::from`'s object case,
`SerializeMap::end` and `SerializeStructVariant::end`: sort the collected
entries by key id (`sort_unstable_by_key`) and intern the slice. -/
def finalizeObject (J : Jinterners) (kvs : List (String × IValue)) :
    IValue × Jinterners :=
  let (es, J') := internKeys J kvs
  let (oid, J'') := internObject J' (sortEntries es)
  (.object oid, J'')

/-- `SerializeTupleVariant::end` (`src/detail/ser.rs`): intern the variant
name, intern the collected field array, store the single-entry object
`{ variant: [fields…] }`. -/
def serializeTupleVariantEnd (J : Jinterners) (variant : String)
    (fields : List IValue) : IValue × Jinterners :=
  let (kid, J1) := internString J variant
  let (aid, J2) := internArray J1 fields
  let (oid, J3) := internObject J2 [(kid, .array aid)]
  (.object oid, J3)

/-! ### Structured deserializer fragments (`src/detail/de.rs`) -/

/-- Error kinds surfaced by the structured codec (`serde_json` errors as
produced in `src/detail/de.rs`). -/
inductive DeError where
  | invalidLength (found : Nat) (expected : String)
  | invalidType (expected : String)
  | custom (msg : String)
deriving DecidableEq

/-- `deserialize_array` (`src/detail/de.rs` lines 12–33) with the driving
visitor abstracted by the number `k` of `next_element_seed` calls it makes:
`ArrayAccess` advances its index once per call while elements remain and
hands the visitor the consumed prefix; `is_fully_scanned` gates success. -/
def deserializeArrayConsuming (arr : List IValue) (k : Nat) :
    Except DeError (List IValue) :=
  let index := min k arr.length
  if index = arr.length then .ok (arr.take k)
  else .error (.invalidLength arr.length "fewer elements in array")

/-- `deserialize_object` (`src/detail/de.rs` lines 64–85) with the visitor
abstracted by its number `k` of `next_key_seed` calls, analogously. -/
def deserializeObjectConsuming (obj : List (Nat × IValue)) (k : Nat) :
    Except DeError (List (Nat × IValue)) :=
  let index := min k obj.length
  if index = obj.length then .ok (obj.take k)
  else .error (.invalidLength obj.length "fewer elements in object")

/-- `deserialize_array_expected_len`: the length-checked variant used for
tuples, tuple variants and positional structs; the visitor consumes
`expectedLen` elements. -/
def deserializeArrayExpectedLen (arr : List IValue) (expectedLen : Nat)
    (msg : String) : Except DeError (List IValue) :=
  if arr.length ≠ expectedLen then .error (.invalidLength arr.length msg)
  else .ok arr

/-- `Deserializer::deserialize_enum` on an `IValue`: a string denotes a unit
variant, an object must have exactly one entry `(variant, value)`.  An
out-of-range arena id would panic in Rust and is modelled as a custom
error. -/
def deserializeEnum (J : Jinterners) (v : IValue) :
    Except DeError (String × Option IValue) :=
  match v with
  | .string s =>
    match J.string[s]? with
    | some name => .ok (name, none)
    | none => .error (.custom "id out of range")
  | .object o =>
    match J.iobject[o]? with
    | some entries =>
      match entries with
      | [(k, value)] =>
        match J.string[k]? with
        | some name => .ok (name, some value)
        | none => .error (.custom "id out of range")
      | _ => .error (.invalidLength entries.length "object with a single entry")
    | none => .error (.custom "id out of range")
  | _ => .error (.invalidType "enum")

/-- `VariantAccess::tuple_variant` (`src/detail/de.rs` lines 575–595): the
variant content must be an interned array of exactly `len` elements
(`deserialize_array_expected_len`), handed to the visitor. -/
def tupleVariant (J : Jinterners) (value : Option IValue) (len : Nat) :
    Except DeError (List IValue) :=
  match value with
  | some (.array a) =>
    match J.iarray[a]? with
    | some xs => deserializeArrayExpectedLen xs len s!"tuple with {len} elements"
    | none => .error (.custom "id out of range")
  | some _ => .error (.invalidType "tuple variant")
  | none => .error (.invalidType "tuple variant")

/-- `deserialize_u32` (via `deserialize_integer`) driven by the derived
`u32` visitor.  Modelled from the spec: integer targets accept `I64` or
`U64` with the range check delegated to the (external `serde`) visitor. -/
def decodeU32 (v : IValue) : Except DeError Nat :=
  match v with
  | .u64 x => if x < 2 ^ 32 then .ok x else .error (.invalidType "u32")
  | .i64 x =>
    if 0 ≤ x ∧ x < 2 ^ 32 then .ok x.toNat else .error (.invalidType "u32")
  | _ => .error (.invalidType "u32")

/-- `deserialize_i64` driven by the derived `i64` visitor.  Modelled from
the spec, as for `decodeU32`. -/
def decodeI64 (v : IValue) : Except DeError Int :=
  match v with
  | .i64 x => .ok x
  | .u64 x => if x < 2 ^ 63 then .ok (x : Int) else .error (.invalidType "i64")
  | _ => .error (.invalidType "i64")

/-- End-to-end decoding of a two-field `(u32, i64)` tuple variant named
`name`: `deserialize_enum`, the derived visitor's variant-name check, then
`tuple_variant` with two integer fields — the `to_value` path for
`Second(u32, i64)`. -/
def decodeTupleVariant2 (J : Jinterners) (name : String) (v : IValue) :
    Except DeError (Nat × Int) := do
  let (variant, content) ← deserializeEnum J v
  if variant ≠ name then throw (.invalidType "variant identifier")
  else
    let xs ← tupleVariant J content 2
    match xs with
    | [a, b] => do
      let x ← decodeU32 a
      let y ← decodeI64 b
      pure (x, y)
    | _ => throw (.invalidLength xs.length "tuple with 2 elements")

/-! ### Shallow map view (`MapRef`, `src/detail/mod.rs`) -/

/-- `Arena::find` for strings: the id of the interned string, no insert. -/
def findString (strings : List String) (k : String) : Option Nat :=
  strings.findIdx? (· == k)

/-- `slice::binary_search_by_key` over the entry keys: the std halving loop
with window `[lo, hi)` and probe `lo + (hi - lo) / 2`. -/
def binarySearchKey (entries : List (Nat × IValue)) (key : Nat) :
    Nat → Nat → Nat → Option Nat
  | 0, _, _ => none
  | fuel + 1, lo, hi =>
    if lo < hi then
      let mid := lo + (hi - lo) / 2
      let k := (entries.getD mid (0, .null)).1
      if k < key then binarySearchKey entries key fuel (mid + 1) hi
      else if key < k then binarySearchKey entries key fuel lo mid
      else some mid
    else none

/-- `MapRef::get_by_key`: binary search over the whole entry slice. -/
def getByKey (entries : List (Nat × IValue)) (key : Nat) : Option IValue :=
  (binarySearchKey entries key (entries.length + 1) 0 entries.length).map
    (fun i => (entries.getD i (0, .null)).2)

/-- `MapRef::get`: `find` the key text in the string arena, then binary
search for the found key id. -/
def mapRefGet (strings : List String) (entries : List (Nat × IValue))
    (k : String) : Option IValue :=
  match findString strings k with
  | none => none
  | some kid => getByKey entries kid

/-- `MapRef::iter`: the entries in stored order, keys looked up in the
string arena. -/
def mapRefIter (strings : List String) (entries : List (Nat × IValue)) :
    List (String × IValue) :=
  entries.map (fun e => (strings.getD e.1 "", e.2))

/-! ### Context well-formedness -/

/-- The ids of a handle bounded by per-kind id-space sizes. -/
def idsBelow (nS nA nO : Nat) : IValue → Prop
  | .string id => id < nS
  | .array id => id < nA
  | .object id => id < nO
  | _ => True

instance : DecidablePred (idsBelow nS nA nO) := fun v => by
  unfold idsBelow
  cases v <;> infer_instance

/-- A handle is valid in a context when its id is within its arena
(referential integrity I2 for the handle itself). -/
def validIn (J : Jinterners) : IValue → Prop :=
  idsBelow J.string.length J.iarray.length J.iobject.length

instance : DecidablePred (validIn J) := fun v => by
  unfold validIn
  infer_instance

/-- Invariants of a context produced by interning: the string arena is
deduplicated (distinct contents), every stored slice only references ids in
range (I2), and object entries are strictly sorted by key id (I3). -/
structure WF (J : Jinterners) : Prop where
  stringsNodup : J.string.Nodup
  arrays : ∀ s ∈ J.iarray, ∀ v ∈ s, validIn J v
  objectsSorted : ∀ o ∈ J.iobject, o.Pairwise (fun a b => a.1 < b.1)
  objectKeys : ∀ o ∈ J.iobject, ∀ e ∈ o, e.1 < J.string.length
  objectVals : ∀ o ∈ J.iobject, ∀ e ∈ o, validIn J e.2

/-! ### Statement-level predicates and concrete instances -/

/-- Well-formedness of a `MappingImpl` over an id space of size `n`: the
stored length is `n` and every table entry is in range (true of every
mapping the library builds, and required by Rust's in-bounds indexing and
the `assert_eq!` in `compose`). -/
def MappingImpl.wf : MappingImpl → Nat → Prop
  | .identity k, n => k = n
  | .map l, n => l.length = n ∧ ∀ x ∈ l, x < n

instance (m : MappingImpl) (n : Nat) : Decidable (m.wf n) := by
  unfold MappingImpl.wf
  cases m <;> infer_instance

/-- Every value stored in a context fits the Rust machine widths. -/
def ctxInRange (J : Jinterners) : Prop :=
  (∀ s ∈ J.iarray, ∀ v ∈ s, v.inRange) ∧
  (∀ o ∈ J.iobject, ∀ e ∈ o, e.1 < 2 ^ 32 ∧ e.2.inRange)

instance (J : Jinterners) : Decidable (ctxInRange J) := by
  unfold ctxInRange
  infer_instance

/-- The explicit swap table `[1, 0]` composed with itself: still explicitly
represented, though it sends both ids to themselves. -/
def swapTwice : MappingImpl := MappingImpl.compose (.map [1, 0]) (.map [1, 0])

/-- A full `Mapping` whose three components are `swapTwice`. -/
def swapTwiceMapping : Mapping := ⟨swapTwice, swapTwice, swapTwice⟩

/-- A two-id-per-kind context matching `swapTwiceMapping`'s id spaces. -/
def twoIdContext : Jinterners := ⟨["", "a"], [[], [.null]], [[], [(0, .null)]]⟩

/-- A variant-preserving id rewrite from three per-kind index maps: the
common shape of `Mapping::map`, `MappingStrings::map` and
`MappingNoStrings::map`. -/
def mapIds (sigS sigA sigO : Nat → Nat) : IValue → IValue
  | .null => .null
  | .bool x => .bool x
  | .u64 x => .u64 x
  | .i64 x => .i64 x
  | .f64 x => .f64 x
  | .string id => .string (sigS id)
  | .array id => .array (sigA id)
  | .object id => .object (sigO id)

/-- One rewrite step of the optimization pass, abstractly: `J'` stores, at
the image of each source id, the source slice with every id rewritten
through the per-kind index maps (object entries also key-rewritten, in any
order).  `optimize_once`, the strings-only pass and the no-strings pass all
produce such a step. -/
structure StepRel (J J' : Jinterners) (sigS sigA sigO : Nat → Nat) : Prop where
  strLen : J'.string.length = J.string.length
  arrLen : J'.iarray.length = J.iarray.length
  objLen : J'.iobject.length = J.iobject.length
  strMapLt : ∀ i, i < J.string.length → sigS i < J.string.length
  arrMapLt : ∀ i, i < J.iarray.length → sigA i < J.iarray.length
  objMapLt : ∀ i, i < J.iobject.length → sigO i < J.iobject.length
  strEq : ∀ i, i < J.string.length → J'.string[sigS i]? = J.string[i]?
  arrEq : ∀ i, i < J.iarray.length →
    J'.iarray[sigA i]? = some ((J.iarray.getD i []).map (mapIds sigS sigA sigO))
  objEq : ∀ i, i < J.iobject.length → ∃ es',
    J'.iobject[sigO i]? = some es' ∧
    List.Perm es' ((J.iobject.getD i []).map
      (fun e => (sigS e.1, mapIds sigS sigA sigO e.2)))

/-- Invariant carried through the `optimize` loop: the running optimized
context is well-formed, has the source's arena sizes, and its mapping
translates every valid source handle while preserving lookups. -/
def OptInv (self : Jinterners) : Option (Jinterners × Mapping) → Prop
  | none => True
  | some (j, m) =>
    WF j ∧
    j.string.length = self.string.length ∧
    j.iarray.length = self.iarray.length ∧
    j.iobject.length = self.iobject.length ∧
    m.string.wf self.string.length ∧
    m.iarray.wf self.iarray.length ∧
    m.iobject.wf self.iobject.length ∧
    (∀ v, validIn self v → validIn j (m.map v)) ∧
    (∀ fuel v, validIn self v → lookupV j fuel (m.map v) = lookupV self fuel v)

/-! ## Basic lemmas on mapping tables -/

theorem List.getD_map_of_lt (f : α → β) (l : List α) (i : Nat) (d : α) (d' : β)
    (hi : i < l.length) : (l.map f).getD i d' = f (l.getD i d) := by
  simp [List.getD_eq_getElem?_getD, List.getElem?_map,
    List.getElem?_eq_getElem hi]

/-- Element-wise behaviour of `MappingImpl::compose` on in-range ids. -/
theorem MappingImpl.at_compose (a b : MappingImpl) (n : Nat)
    (ha : a.wf n) (hb : b.wf n) (i : Nat) (hi : i < n) :
    (a.compose b).at i = b.at (a.at i) := by
  cases a with
  | identity k =>
    cases b with
    | identity k' => rfl
    | map r => rfl
  | map l =>
    cases b with
    | identity k' => rfl
    | map r =>
      obtain ⟨hl, _⟩ := ha
      simp only [MappingImpl.compose, MappingImpl.at]
      exact List.getD_map_of_lt _ l i 0 0 (hl ▸ hi)

/-- `compose` preserves mapping well-formedness. -/
theorem MappingImpl.wf_compose (a b : MappingImpl) (n : Nat)
    (ha : a.wf n) (hb : b.wf n) : (a.compose b).wf n := by
  cases a with
  | identity k =>
    cases b with
    | identity k' => exact ha
    | map r => exact hb
  | map l =>
    cases b with
    | identity k' => exact ha
    | map r =>
      obtain ⟨hl, hlm⟩ := ha
      obtain ⟨hr, hrm⟩ := hb
      refine ⟨by simpa using hl, ?_⟩
      intro x hx
      simp only [List.mem_map] at hx
      obtain ⟨y, hy, rfl⟩ := hx
      have : y < n := hlm y hy
      have : y < r.length := hr ▸ this
      have hmem : r.getD y 0 ∈ r := by
        rw [List.getD_eq_getElem?_getD, List.getElem?_eq_getElem this]
        exact Option.getD_some ▸ List.getElem_mem _
      exact hrm _ hmem

/-- C4: composition of mappings is element-wise on every in-range handle
(`(m1.compose(m2)).map(h) = m2.map(m1.map(h))`), and composing mappings that
are both represented as the identity yields an identity-represented
mapping. -/
theorem mapping_compose_elementwise (m1 : Mapping) (m2 : MappingNoStrings)
    (nS nA nO : Nat) (h1a : m1.iarray.wf nA) (h1o : m1.iobject.wf nO)
    (h2a : m2.iarray.wf nA) (h2o : m2.iobject.wf nO) (h : IValue)
    (hh : idsBelow nS nA nO h) :
    (m1.compose m2).map h = m2.map (m1.map h) ∧
    (m1.isIdentity = true → m2.isIdentity = true →
      (m1.compose m2).isIdentity = true) := by
  constructor
  · cases h with
    | null => rfl
    | bool x => rfl
    | u64 x => rfl
    | i64 x => rfl
    | f64 x => rfl
    | string id => rfl
    | array id =>
      simp only [Mapping.compose, Mapping.map, MappingNoStrings.map]
      rw [MappingImpl.at_compose m1.iarray m2.iarray nA h1a h2a id hh]
    | object id =>
      simp only [Mapping.compose, Mapping.map, MappingNoStrings.map]
      rw [MappingImpl.at_compose m1.iobject m2.iobject nO h1o h2o id hh]
  · intro hm1 hm2
    simp only [Mapping.isIdentity, Bool.and_eq_true] at hm1
    simp only [MappingNoStrings.isIdentity, Bool.and_eq_true] at hm2
    obtain ⟨⟨hs, ha⟩, ho⟩ := hm1
    obtain ⟨ha2, ho2⟩ := hm2
    cases h1 : m1.iarray <;> rw [h1] at ha <;> simp [MappingImpl.isIdentity] at ha
    cases h2 : m2.iarray <;> rw [h2] at ha2 <;> simp [MappingImpl.isIdentity] at ha2
    cases h3 : m1.iobject <;> rw [h3] at ho <;> simp [MappingImpl.isIdentity] at ho
    cases h4 : m2.iobject <;> rw [h4] at ho2 <;> simp [MappingImpl.isIdentity] at ho2
    simp only [Mapping.compose, Mapping.isIdentity, h1, h2, h3, h4,
      MappingImpl.compose, MappingImpl.isIdentity, Bool.and_true]
    exact hs

/-- Witness for C4 at a concrete pair of mappings and handle. -/
theorem mapping_compose_elementwise_witness :
    (Mapping.compose ⟨.identity 1, .map [1, 0], .identity 0⟩
        ⟨.map [1, 0], .identity 0⟩).map (.array 0) =
      MappingNoStrings.map ⟨.map [1, 0], .identity 0⟩
        (Mapping.map ⟨.identity 1, .map [1, 0], .identity 0⟩ (.array 0)) :=
  (mapping_compose_elementwise ⟨.identity 1, .map [1, 0], .identity 0⟩
    ⟨.map [1, 0], .identity 0⟩ 1 2 0 (by decide) (by decide)
    (by decide) (by decide) (.array 0) (by decide)).1

/-- C10: `is_identity` is decided by representation, not extension — the
composition of the explicit swap `[1, 0]` with itself reports
`is_identity() = false` although every `count_remapped_*()` is 0 and
`map(h) = h` for every handle of the matching two-id spaces. -/
theorem is_identity_by_representation :
    swapTwiceMapping.isIdentity = false ∧
    swapTwiceMapping.countRemappedStrings = 0 ∧
    swapTwiceMapping.countRemappedArrays = 0 ∧
    swapTwiceMapping.countRemappedObjects = 0 ∧
    (∀ h : IValue, validIn twoIdContext h → swapTwiceMapping.map h = h) := by
  refine ⟨rfl, rfl, rfl, rfl, ?_⟩
  intro h hv
  cases h with
  | string id =>
    simp only [validIn, idsBelow, twoIdContext, List.length_cons,
      List.length_nil] at hv
    interval_cases id <;> rfl
  | array id =>
    simp only [validIn, idsBelow, twoIdContext, List.length_cons,
      List.length_nil] at hv
    interval_cases id <;> rfl
  | object id =>
    simp only [validIn, idsBelow, twoIdContext, List.length_cons,
      List.length_nil] at hv
    interval_cases id <;> rfl
  | null => rfl
  | bool x => rfl
  | u64 x => rfl
  | i64 x => rfl
  | f64 x => rfl

/-- Witness for C10 at a concrete handle. -/
theorem is_identity_by_representation_witness :
    swapTwiceMapping.map (.string 1) = .string 1 :=
  is_identity_by_representation.2.2.2.2 (.string 1) (by decide)

/-- C9: `to_value` rejects partial consumption — if the driving visitor
stops after `k` elements with `k` short of the stored slice length, both
`deserialize_array` and `deserialize_object` fail with an invalid-length
error, and a successful run always hands the visitor the whole slice
(a strict prefix is never silently accepted; a positional struct with `N`
fields read from a longer array is the instance `k = N`). -/
theorem to_value_rejects_partial_consumption (arr : List IValue)
    (obj : List (Nat × IValue)) (k : Nat) :
    (k < arr.length →
      deserializeArrayConsuming arr k =
        .error (.invalidLength arr.length "fewer elements in array")) ∧
    (∀ l, deserializeArrayConsuming arr k = .ok l → l = arr) ∧
    (k < obj.length →
      deserializeObjectConsuming obj k =
        .error (.invalidLength obj.length "fewer elements in object")) ∧
    (∀ l, deserializeObjectConsuming obj k = .ok l → l = obj) := by
  refine ⟨?_, ?_, ?_, ?_⟩
  · intro hk
    unfold deserializeArrayConsuming
    rw [if_neg (by omega)]
  · intro l hl
    unfold deserializeArrayConsuming at hl
    by_cases hmin : min k arr.length = arr.length
    · rw [if_pos hmin] at hl
      cases hl
      exact List.take_of_length_le (by omega)
    · rw [if_neg hmin] at hl
      cases hl
  · intro hk
    unfold deserializeObjectConsuming
    rw [if_neg (by omega)]
  · intro l hl
    unfold deserializeObjectConsuming at hl
    by_cases hmin : min k obj.length = obj.length
    · rw [if_pos hmin] at hl
      cases hl
      exact List.take_of_length_le (by omega)
    · rw [if_neg hmin] at hl
      cases hl

/-- Witness for C9: a two-field positional read from a three-element array. -/
theorem to_value_rejects_partial_consumption_witness :
    deserializeArrayConsuming [.null, .null, .null] 2 =
      .error (.invalidLength 3 "fewer elements in array") :=
  (to_value_rejects_partial_consumption [.null, .null, .null] [] 2).1
    (by decide)

/-! ## Delta codec round-trip (C2) -/

/-- One value through fold then unfold from the same accumulator state:
the value and the final state are both recovered. -/
theorem IValueAccumulator.unfold_fold (acc : IValueAccumulator) (v : IValue)
    (hv : v.inRange) : acc.unfold (acc.fold v).1 = (v, (acc.fold v).2) := by
  cases v with
  | null => rfl
  | bool x =>
    simp only [fold, unfold]
    rw [show acc.b.xor (acc.b.xor x) = x by cases acc.b <;> cases x <;> rfl]
  | u64 x =>
    simp only [IValue.inRange] at hv
    have hx : (acc.u + subWrap (2 ^ 64) x acc.u) % 2 ^ 64 = x := by
      unfold subWrap
      omega
    simp only [fold, unfold, hx]
  | i64 x =>
    simp only [IValue.inRange] at hv
    have hx : wrapI64 (acc.i + wrapI64 (x - acc.i)) = x := by
      unfold wrapI64
      omega
    simp only [fold, unfold, hx]
  | f64 x =>
    have hx : acc.f ^^^ (acc.f ^^^ x) = x := by
      rw [← Nat.xor_assoc, Nat.xor_self, Nat.zero_xor]
    simp only [fold, unfold, hx]
  | string id =>
    simp only [IValue.inRange] at hv
    have hx : (acc.s + subWrap (2 ^ 32) id acc.s) % 2 ^ 32 = id := by
      unfold subWrap
      omega
    simp only [fold, unfold, hx]
  | array id =>
    simp only [IValue.inRange] at hv
    have hx : (acc.a + subWrap (2 ^ 32) id acc.a) % 2 ^ 32 = id := by
      unfold subWrap
      omega
    simp only [fold, unfold, hx]
  | object id =>
    simp only [IValue.inRange] at hv
    have hx : (acc.o + subWrap (2 ^ 32) id acc.o) % 2 ^ 32 = id := by
      unfold subWrap
      omega
    simp only [fold, unfold, hx]

/-- One slice through the shared array accumulator. -/
theorem unfoldSlice_foldSlice (vs : List IValue) :
    ∀ acc : IValueAccumulator, (∀ v ∈ vs, v.inRange) →
    unfoldSlice acc (foldSlice acc vs).1 = (vs, (foldSlice acc vs).2) := by
  induction vs with
  | nil => intro acc _; rfl
  | cons v vs ih =>
    intro acc h
    have h1 := IValueAccumulator.unfold_fold acc v (h v (by simp))
    have h2 := ih (acc.fold v).2 (fun x hx => h x (by simp [hx]))
    simp only [foldSlice, unfoldSlice, h1, h2]

/-- The whole array arena through the shared accumulator. -/
theorem unfoldArrays_foldArrays (ss : List (List IValue)) :
    ∀ acc : IValueAccumulator, (∀ s ∈ ss, ∀ v ∈ s, v.inRange) →
    unfoldArrays acc (foldArrays acc ss).1 = (ss, (foldArrays acc ss).2) := by
  induction ss with
  | nil => intro acc _; rfl
  | cons s ss ih =>
    intro acc h
    have h1 := unfoldSlice_foldSlice s acc (h s (by simp))
    have h2 := ih (foldSlice acc s).2 (fun t ht => h t (by simp [ht]))
    simp only [foldArrays, unfoldArrays, h1, h2]

/-- One object slice through the keyed accumulator map and the in-slice key
chain. -/
theorem unfoldObjSlice_foldObjSlice (es : List (Nat × IValue)) :
    ∀ (m : ObjAccMap) (key : Nat), (∀ e ∈ es, e.1 < 2 ^ 32 ∧ e.2.inRange) →
    unfoldObjSlice m key (foldObjSlice m key es).1 =
      (es, (foldObjSlice m key es).2) := by
  induction es with
  | nil => intro m key _; rfl
  | cons e es ih =>
    intro m key h
    obtain ⟨k, x⟩ := e
    obtain ⟨hk, hx⟩ := h (k, x) (by simp)
    have hkey : (key + subWrap (2 ^ 32) k key) % 2 ^ 32 = k := by
      unfold subWrap
      omega
    have hfold := IValueAccumulator.unfold_fold (m k) x hx
    have hih := ih (fun j => if j = k then ((m k).fold x).2 else m j) k
      (fun e he => h e (by simp [he]))
    simp only [foldObjSlice, unfoldObjSlice, hkey, hfold, hih]

/-- The whole object arena through the keyed accumulator map. -/
theorem unfoldObjects_foldObjects (ss : List (List (Nat × IValue))) :
    ∀ m : ObjAccMap, (∀ o ∈ ss, ∀ e ∈ o, e.1 < 2 ^ 32 ∧ e.2.inRange) →
    unfoldObjects m (foldObjects m ss).1 = (ss, (foldObjects m ss).2) := by
  induction ss with
  | nil => intro m _; rfl
  | cons s ss ih =>
    intro m h
    have h1 := unfoldObjSlice_foldObjSlice s m 0 (h s (by simp))
    have h2 := ih (foldObjSlice m 0 s).2 (fun t ht => h t (by simp [ht]))
    simp only [foldObjects, unfoldObjects, h1, h2]

/-- C2: delta round-trip — folding any sequence of array slices or
object-entry slices through the accumulators and unfolding the resulting
deltas, both sides starting from the freshly-default state
(`b = false, u = 0, i = 0, f = bits 0, s = a = o = 0`, and the empty per-key
map for objects), reproduces the original values exactly; consequently
decoding an encoded context yields an equal context. -/
theorem delta_round_trip (ass : List (List IValue))
    (oss : List (List (Nat × IValue))) (J : Jinterners)
    (hass : ∀ s ∈ ass, ∀ v ∈ s, v.inRange)
    (hoss : ∀ o ∈ oss, ∀ e ∈ o, e.1 < 2 ^ 32 ∧ e.2.inRange)
    (hJ : ctxInRange J) :
    (unfoldArrays accDefault (foldArrays accDefault ass).1).1 = ass ∧
    (unfoldObjects objAccDefault (foldObjects objAccDefault oss).1).1 = oss ∧
    decodeCtx (encodeCtx J) = J := by
  refine ⟨?_, ?_, ?_⟩
  · rw [unfoldArrays_foldArrays ass accDefault hass]
  · rw [unfoldObjects_foldObjects oss objAccDefault hoss]
  · obtain ⟨hJa, hJo⟩ := hJ
    show (⟨J.string,
      (unfoldArrays accDefault (foldArrays accDefault J.iarray).1).1,
      (unfoldObjects objAccDefault (foldObjects objAccDefault J.iobject).1).1⟩ :
        Jinterners) = J
    rw [unfoldArrays_foldArrays J.iarray accDefault hJa,
      unfoldObjects_foldObjects J.iobject objAccDefault hJo]

/-- Witness for C2 at concrete slices and a concrete context. -/
theorem delta_round_trip_witness :
    (unfoldArrays accDefault
      (foldArrays accDefault [[IValue.u64 5, IValue.i64 (-3)]]).1).1 =
      [[IValue.u64 5, IValue.i64 (-3)]] ∧
    (unfoldObjects objAccDefault
      (foldObjects objAccDefault [[(1, IValue.f64 9)], [(1, IValue.f64 5)]]).1).1 =
      [[(1, IValue.f64 9)], [(1, IValue.f64 5)]] := by
  have h := delta_round_trip [[.u64 5, .i64 (-3)]]
    [[(1, .f64 9)], [(1, .f64 5)]] ⟨[""], [[.bool true]], []⟩
    (by decide) (by decide) (by decide)
  exact ⟨h.1, h.2.1⟩

/-! ## Interning lemmas and the enum variant encoding (C7) -/

/-- `intern` on the string arena: the returned id denotes the interned
string, the other arenas are untouched. -/
theorem internString_spec (J : Jinterners) (s : String) :
    (internString J s).2.string[(internString J s).1]? = some s ∧
    (internString J s).2.iarray = J.iarray ∧
    (internString J s).2.iobject = J.iobject := by
  unfold internString
  cases hf : J.string.findIdx? (· == s) with
  | none =>
    refine ⟨?_, rfl, rfl⟩
    simp only
    rw [List.getElem?_append_right (le_refl _)]
    simp
  | some i =>
    rw [List.findIdx?_eq_some_iff_getElem] at hf
    obtain ⟨h, hp, _⟩ := hf
    refine ⟨?_, rfl, rfl⟩
    simp only
    rw [List.getElem?_eq_getElem h]
    simpa using hp

/-- `intern_copy` on the array arena: the returned id denotes the interned
slice, the other arenas are untouched. -/
theorem internArray_spec (J : Jinterners) (a : List IValue) :
    (internArray J a).2.iarray[(internArray J a).1]? = some a ∧
    (internArray J a).2.string = J.string ∧
    (internArray J a).2.iobject = J.iobject := by
  unfold internArray
  cases hf : J.iarray.findIdx? (· == a) with
  | none =>
    refine ⟨?_, rfl, rfl⟩
    simp only
    rw [List.getElem?_append_right (le_refl _)]
    simp
  | some i =>
    rw [List.findIdx?_eq_some_iff_getElem] at hf
    obtain ⟨h, hp, _⟩ := hf
    refine ⟨?_, rfl, rfl⟩
    simp only
    rw [List.getElem?_eq_getElem h]
    simpa using hp

/-- `intern_copy`/`intern_array` on the object arena. -/
theorem internObject_spec (J : Jinterners) (o : List (Nat × IValue)) :
    (internObject J o).2.iobject[(internObject J o).1]? = some o ∧
    (internObject J o).2.string = J.string ∧
    (internObject J o).2.iarray = J.iarray := by
  unfold internObject
  cases hf : J.iobject.findIdx? (· == o) with
  | none =>
    refine ⟨?_, rfl, rfl⟩
    simp only
    rw [List.getElem?_append_right (le_refl _)]
    simp
  | some i =>
    rw [List.findIdx?_eq_some_iff_getElem] at hf
    obtain ⟨h, hp, _⟩ := hf
    refine ⟨?_, rfl, rfl⟩
    simp only
    rw [List.getElem?_eq_getElem h]
    simpa using hp

/-- C7: tuple-variant encoding — serializing a tuple variant `v(a, b, …)`
stores an object with exactly one entry mapping the interned string `v` to
the interned field array; concretely, encoding `Second(42, -7)` into a fresh
context yields `Object{"Second": [42, -7]}` (as seen by `lookup`) and
`to_value` decodes that `IValue` back to the original variant data. -/
theorem tuple_variant_encoding (J : Jinterners) (variant : String)
    (fields : List IValue) :
    (∃ kid aid oid,
      (serializeTupleVariantEnd J variant fields).1 = .object oid ∧
      (serializeTupleVariantEnd J variant fields).2.iobject[oid]? =
        some [(kid, .array aid)] ∧
      (serializeTupleVariantEnd J variant fields).2.string[kid]? =
        some variant ∧
      (serializeTupleVariantEnd J variant fields).2.iarray[aid]? =
        some fields) ∧
    (lookupV (serializeTupleVariantEnd ⟨[""], [], []⟩ "Second"
        [.u64 42, .i64 (-7)]).2 3
        (serializeTupleVariantEnd ⟨[""], [], []⟩ "Second"
          [.u64 42, .i64 (-7)]).1 =
      some (.obj [("Second", .arr [.numU 42, .numI (-7)])])) ∧
    (decodeTupleVariant2 (serializeTupleVariantEnd ⟨[""], [], []⟩ "Second"
        [.u64 42, .i64 (-7)]).2 "Second"
        (serializeTupleVariantEnd ⟨[""], [], []⟩ "Second"
          [.u64 42, .i64 (-7)]).1 =
      .ok (42, -7)) := by
  refine ⟨?_, rfl, rfl⟩
  obtain ⟨hs1, hs2, hs3⟩ := internString_spec J variant
  obtain ⟨ha1, ha2, ha3⟩ := internArray_spec (internString J variant).2 fields
  obtain ⟨ho1, ho2, ho3⟩ := internObject_spec
    (internArray (internString J variant).2 fields).2
    [((internString J variant).1, .array (internArray (internString J variant).2 fields).1)]
  refine ⟨(internString J variant).1,
    (internArray (internString J variant).2 fields).1,
    (internObject (internArray (internString J variant).2 fields).2
      [((internString J variant).1,
        .array (internArray (internString J variant).2 fields).1)]).1,
    rfl, ho1, ?_, ?_⟩
  · rw [show (serializeTupleVariantEnd J variant fields).2.string =
      (internString J variant).2.string from by
        unfold serializeTupleVariantEnd
        simp only
        rw [ho2, ha2]]
    exact hs1
  · rw [show (serializeTupleVariantEnd J variant fields).2.iarray =
      (internArray (internString J variant).2 fields).2.iarray from by
        unfold serializeTupleVariantEnd
        simp only
        rw [ho3]]
    exact ha1

/-! ## Binary search and map lookup (C8) -/

/-- Soundness of the halving loop: a returned index is in range and its
entry's key is the searched key. -/
theorem binarySearchKey_sound (entries : List (Nat × IValue)) (key : Nat) :
    ∀ fuel lo hi i, hi ≤ entries.length →
    binarySearchKey entries key fuel lo hi = some i →
    i < entries.length ∧ (entries.getD i (0, .null)).1 = key := by
  intro fuel
  induction fuel with
  | zero => intro lo hi i _ h; cases h
  | succ fuel ih =>
    intro lo hi i hhi h
    unfold binarySearchKey at h
    by_cases hlt : lo < hi
    · rw [if_pos hlt] at h
      simp only at h
      by_cases h1 : (entries.getD (lo + (hi - lo) / 2) (0, .null)).1 < key
      · rw [if_pos h1] at h
        exact ih _ _ _ hhi h
      · rw [if_neg h1] at h
        by_cases h2 : key < (entries.getD (lo + (hi - lo) / 2) (0, .null)).1
        · rw [if_pos h2] at h
          exact ih _ _ _ (by omega) h
        · rw [if_neg h2] at h
          cases h
          exact ⟨by omega, by omega⟩
    · rw [if_neg hlt] at h
      cases h

/-- Completeness of the halving loop on a strictly key-sorted slice: if some
entry in the window holds the searched key, the search succeeds. -/
theorem binarySearchKey_complete (entries : List (Nat × IValue)) (key : Nat)
    (hsorted : entries.Pairwise (fun a b => a.1 < b.1)) :
    ∀ fuel lo hi, hi ≤ entries.length → hi - lo < fuel →
    (∃ j, lo ≤ j ∧ j < hi ∧ (entries.getD j (0, .null)).1 = key) →
    ∃ i, binarySearchKey entries key fuel lo hi = some i := by
  have hmono : ∀ i j (_ : i < j) (_ : j < entries.length),
      (entries.getD i (0, .null)).1 < (entries.getD j (0, .null)).1 := by
    intro i j hij hj
    have hi' : i < entries.length := by omega
    rw [List.getD_eq_getElem _ _ hi', List.getD_eq_getElem _ _ hj]
    exact List.pairwise_iff_getElem.mp hsorted i j hi' hj hij
  intro fuel
  induction fuel with
  | zero => intro lo hi _ h _; omega
  | succ fuel ih =>
    intro lo hi hhi hfuel hex
    obtain ⟨j, hj1, hj2, hj3⟩ := hex
    have hlt : lo < hi := by omega
    unfold binarySearchKey
    rw [if_pos hlt]
    simp only
    set mid := lo + (hi - lo) / 2 with hmid
    by_cases h1 : (entries.getD mid (0, .null)).1 < key
    · rw [if_pos h1]
      have hjmid : mid < j := by
        rcases Nat.lt_trichotomy j mid with h' | h' | h'
        · have := hmono j mid h' (by omega)
          omega
        · rw [h'] at hj3
          omega
        · exact h'
      exact ih (mid + 1) hi hhi (by omega) ⟨j, by omega, hj2, hj3⟩
    · rw [if_neg h1]
      by_cases h2 : key < (entries.getD mid (0, .null)).1
      · rw [if_pos h2]
        have hjmid : j < mid := by
          rcases Nat.lt_trichotomy j mid with h' | h' | h'
          · exact h'
          · rw [h'] at hj3
            omega
          · have := hmono mid j h' (by omega)
            omega
        exact ih lo mid (by omega) (by omega) ⟨j, hj1, hjmid, hj3⟩
      · rw [if_neg h2]
        exact ⟨mid, rfl⟩

/-- C8: map-lookup agreement — on an interned object slice (strictly sorted
keys, in-range key ids, deduplicated string arena), `MapRef::get(k)` returns
`Some(v)` exactly when `(k, v)` is produced by iterating the entries, and it
returns `None` whenever `k` is not interned in the string arena at all. -/
theorem map_lookup_agreement (strings : List String)
    (entries : List (Nat × IValue)) (k : String)
    (hnd : strings.Nodup)
    (hsorted : entries.Pairwise (fun a b => a.1 < b.1))
    (hkeys : ∀ e ∈ entries, e.1 < strings.length) :
    (∀ v, mapRefGet strings entries k = some v ↔
      (k, v) ∈ mapRefIter strings entries) ∧
    (findString strings k = none → mapRefGet strings entries k = none) := by
  constructor
  · intro v
    constructor
    · intro hget
      unfold mapRefGet at hget
      cases hfind : findString strings k with
      | none => rw [hfind] at hget; cases hget
      | some kid =>
        rw [hfind] at hget
        replace hget : getByKey entries kid = some v := hget
        unfold findString at hfind
        rw [List.findIdx?_eq_some_iff_getElem] at hfind
        obtain ⟨hkid, hkidk, _⟩ := hfind
        have hkidk : strings[kid] = k := by simpa using hkidk
        unfold getByKey at hget
        cases hbs : binarySearchKey entries kid (entries.length + 1) 0
            entries.length with
        | none => rw [hbs] at hget; cases hget
        | some i =>
          rw [hbs] at hget
          obtain ⟨hi, hik⟩ := binarySearchKey_sound entries kid _ _ _ i
            (le_refl _) hbs
          simp only [Option.map_some', Option.some.injEq] at hget
          unfold mapRefIter
          rw [List.mem_map]
          refine ⟨entries[i], List.getElem_mem _, ?_⟩
          rw [List.getD_eq_getElem _ _ hi] at hik hget
          rw [hik, List.getD_eq_getElem _ _ hkid, hkidk, hget]
    · intro hmem
      unfold mapRefIter at hmem
      rw [List.mem_map] at hmem
      obtain ⟨e, he, heq⟩ := hmem
      obtain ⟨j, hj, rfl⟩ := List.mem_iff_getElem.mp he
      have hjlen : entries[j].1 < strings.length := hkeys _ (List.getElem_mem _)
      rw [List.getD_eq_getElem _ _ hjlen] at heq
      have hk : strings[entries[j].1] = k := congrArg Prod.fst heq
      have hv : entries[j].2 = v := congrArg Prod.snd heq
      cases hfind : findString strings k with
      | none =>
        unfold findString at hfind
        rw [List.findIdx?_eq_none_iff] at hfind
        have := hfind strings[entries[j].1] (List.getElem_mem _)
        simp [hk] at this
      | some kid =>
        have hfind' := hfind
        unfold findString at hfind'
        rw [List.findIdx?_eq_some_iff_getElem] at hfind'
        obtain ⟨hkid, hkidk, _⟩ := hfind'
        have hkidk : strings[kid] = k := by simpa using hkidk
        have hkid_eq : kid = entries[j].1 :=
          (@List.Nodup.getElem_inj_iff _ _ hnd _ hkid _ hjlen).mp
            (hkidk.trans hk.symm)
        obtain ⟨i, hbs⟩ := binarySearchKey_complete entries kid hsorted
          (entries.length + 1) 0 entries.length (le_refl _) (by omega)
          ⟨j, Nat.zero_le _, hj, by rw [List.getD_eq_getElem _ _ hj, hkid_eq]⟩
        obtain ⟨hi, hik⟩ := binarySearchKey_sound entries kid _ _ _ i
          (le_refl _) hbs
        have hij : i = j := by
          rcases Nat.lt_trichotomy i j with h' | h' | h'
          · have := List.pairwise_iff_getElem.mp hsorted i j hi hj h'
            rw [List.getD_eq_getElem _ _ hi] at hik
            omega
          · exact h'
          · have := List.pairwise_iff_getElem.mp hsorted j i hj hi h'
            rw [List.getD_eq_getElem _ _ hi] at hik
            omega
        have hmg : mapRefGet strings entries k = getByKey entries kid := by
          unfold mapRefGet
          rw [hfind]
        rw [hmg]
        unfold getByKey
        rw [hbs]
        simp only [Option.map_some', Option.some.injEq]
        rw [List.getD_eq_getElem _ _ hi]
        subst hij
        exact hv
  · intro hfind
    unfold mapRefGet
    rw [hfind]

/-- Witness for C8 on a concrete object. -/
theorem map_lookup_agreement_witness :
    mapRefGet ["", "x"] [(1, IValue.u64 1)] "x" = some (IValue.u64 1) :=
  ((map_lookup_agreement ["", "x"] [(1, .u64 1)] "x" (by decide) (by decide)
    (by decide)).1 (.u64 1)).mpr (by decide)

/-! ## Stable sort lemmas -/

theorem insertStable_perm (le : α → α → Bool) (a : α) (l : List α) :
    List.Perm (insertStable le a l) (a :: l) := by
  induction l with
  | nil => exact List.Perm.refl _
  | cons b bs ih =>
    unfold insertStable
    by_cases h : le b a = true
    · rw [if_pos h]
      exact (ih.cons b).trans (List.Perm.swap a b bs)
    · rw [if_neg h]

theorem foldl_insertStable_perm (le : α → α → Bool) (l : List α) :
    ∀ acc, List.Perm (l.foldl (fun acc x => insertStable le x acc) acc)
      (acc ++ l) := by
  induction l with
  | nil => intro acc; simp
  | cons x xs ih =>
    intro acc
    have h1 := ih (insertStable le x acc)
    have h2 : List.Perm (insertStable le x acc ++ xs) ((x :: acc) ++ xs) :=
      (insertStable_perm le x acc).append_right xs
    exact (h1.trans (h2.trans List.perm_middle.symm))

theorem stableSortBy_perm (le : α → α → Bool) (l : List α) :
    List.Perm (stableSortBy le l) l := by
  simpa using foldl_insertStable_perm le l []

theorem insertStable_pairwise (le : α → α → Bool)
    (htot : ∀ a b, le a b = true ∨ le b a = true)
    (htrans : ∀ a b c, le a b = true → le b c = true → le a c = true)
    (a : α) (l : List α) (hl : l.Pairwise (fun x y => le x y = true)) :
    (insertStable le a l).Pairwise (fun x y => le x y = true) := by
  induction l with
  | nil => simp [insertStable]
  | cons b bs ih =>
    rw [List.pairwise_cons] at hl
    obtain ⟨hb, hbs⟩ := hl
    unfold insertStable
    by_cases h : le b a = true
    · rw [if_pos h]
      rw [List.pairwise_cons]
      refine ⟨?_, ih hbs⟩
      intro x hx
      rcases List.mem_cons.mp ((insertStable_perm le a bs).mem_iff.mp hx) with
        rfl | hxbs
      · exact h
      · exact hb x hxbs
    · rw [if_neg h]
      have hab : le a b = true := (htot a b).resolve_right h
      rw [List.pairwise_cons]
      refine ⟨?_, List.pairwise_cons.mpr ⟨hb, hbs⟩⟩
      intro x hx
      rcases List.mem_cons.mp hx with rfl | hxbs
      · exact hab
      · exact htrans a b x hab (hb x hxbs)

theorem stableSortBy_pairwise (le : α → α → Bool)
    (htot : ∀ a b, le a b = true ∨ le b a = true)
    (htrans : ∀ a b c, le a b = true → le b c = true → le a c = true)
    (l : List α) :
    (stableSortBy le l).Pairwise (fun x y => le x y = true) := by
  suffices h : ∀ acc, acc.Pairwise (fun x y => le x y = true) →
      (l.foldl (fun acc x => insertStable le x acc) acc).Pairwise
        (fun x y => le x y = true) from h [] List.Pairwise.nil
  induction l with
  | nil => intro acc hacc; exact hacc
  | cons x xs ih =>
    intro acc hacc
    exact ih _ (insertStable_pairwise le htot htrans x acc hacc)

/-! ## Permutation and reverse-table lemmas -/

theorem map_getD_range (l : List α) (d : α) :
    (List.range l.length).map (fun i => l.getD i d) = l := by
  apply List.ext_getElem
  · simp
  · intro i h1 h2
    simp only [List.getElem_map, List.getElem_range]
    exact List.getD_eq_getElem l d h2

theorem map_getD_perm (l : List α) (d : α) (perm : List Nat)
    (hp : List.Perm perm (List.range l.length)) :
    List.Perm (perm.map (fun i => l.getD i d)) l := by
  have := hp.map (fun i => l.getD i d)
  rwa [map_getD_range l d] at this

theorem getD_set_ne (l : List α) (d a : α) (i j : Nat) (h : i ≠ j) :
    (l.set i a).getD j d = l.getD j d := by
  rw [List.getD_eq_getElem?_getD, List.getD_eq_getElem?_getD,
    List.getElem?_set_ne h]

theorem getD_set_self (l : List α) (d a : α) (i : Nat) (h : i < l.length) :
    (l.set i a).getD i d = a := by
  rw [List.getD_eq_getElem?_getD, List.getElem?_set_self h]
  rfl

theorem isIdentityPerm_getD (perm : List Nat) (h : isIdentityPerm perm = true)
    (p : Nat) (hp : p < perm.length) : perm.getD p 0 = p := by
  unfold isIdentityPerm at h
  rw [List.all_eq_true] at h
  have hmem : (p, perm[p]) ∈ perm.enum := by
    rw [List.mem_enum_iff_getElem?]
    simp [List.getElem?_eq_getElem hp]
  have hpe := h _ hmem
  simp only [beq_iff_eq] at hpe
  rw [List.getD_eq_getElem _ _ hp]
  omega

theorem foldl_set_length (perm : List Nat) (is : List Nat) :
    ∀ acc : List Nat,
      (is.foldl (fun acc i => acc.set (perm.getD i 0) i) acc).length =
        acc.length := by
  induction is with
  | nil => intro acc; rfl
  | cons i rest ih =>
    intro acc
    rw [List.foldl_cons, ih, List.length_set]

theorem foldl_set_untouched (perm : List Nat) (is : List Nat) :
    ∀ (acc : List Nat) (j : Nat), (∀ i ∈ is, perm.getD i 0 ≠ j) →
      (is.foldl (fun acc i => acc.set (perm.getD i 0) i) acc).getD j 0 =
        acc.getD j 0 := by
  induction is with
  | nil => intro acc j _; rfl
  | cons i rest ih =>
    intro acc j hj
    rw [List.foldl_cons, ih _ j (fun q hq => hj q (List.mem_cons_of_mem _ hq))]
    exact getD_set_ne acc 0 i _ j (hj i (List.mem_cons_self ..))

theorem foldl_set_hits (perm : List Nat) (is : List Nat) :
    ∀ (acc : List Nat) (p : Nat), p ∈ is → is.Nodup →
      (∀ q₁ ∈ is, ∀ q₂ ∈ is, perm.getD q₁ 0 = perm.getD q₂ 0 → q₁ = q₂) →
      perm.getD p 0 < acc.length →
      (is.foldl (fun acc i => acc.set (perm.getD i 0) i) acc).getD
        (perm.getD p 0) 0 = p := by
  induction is with
  | nil => intro _ _ h; cases h
  | cons i rest ih =>
    intro acc p hp hnd hinj hlen
    rw [List.foldl_cons]
    rcases List.mem_cons.mp hp with rfl | hprest
    · rw [foldl_set_untouched perm rest _ _ ?_]
      · exact getD_set_self acc 0 p _ hlen
      · intro q hq hqeq
        have hqp : q = p := hinj q (List.mem_cons_of_mem _ hq) p
          (List.mem_cons_self ..) hqeq
        rw [List.nodup_cons] at hnd
        exact hnd.1 (hqp ▸ hq)
    · refine ih (acc.set (perm.getD i 0) i) p hprest
        (List.nodup_cons.mp hnd).2
        (fun a ha b hb => hinj a (List.mem_cons_of_mem _ ha) b
          (List.mem_cons_of_mem _ hb)) ?_
      rwa [List.length_set]

theorem reversePerm_length (perm : List Nat) :
    (reversePerm perm).length = perm.length := by
  unfold reversePerm
  rw [foldl_set_length, List.length_replicate]

theorem perm_range_length (perm : List Nat) (n : Nat)
    (hp : List.Perm perm (List.range n)) : perm.length = n := by
  have := hp.length_eq
  simpa using this

theorem perm_range_mem_lt (perm : List Nat) (n : Nat)
    (hp : List.Perm perm (List.range n)) : ∀ x ∈ perm, x < n := by
  intro x hx
  have := hp.mem_iff.mp hx
  simpa using this

theorem reversePerm_getD (perm : List Nat) (n : Nat)
    (hp : List.Perm perm (List.range n)) (p : Nat) (hlt : p < n) :
    (reversePerm perm).getD (perm.getD p 0) 0 = p := by
  have hlen := perm_range_length perm n hp
  have hnd : perm.Nodup := hp.nodup_iff.mpr (List.nodup_range _)
  unfold reversePerm
  apply foldl_set_hits
  · rw [hlen]
    exact List.mem_range.mpr hlt
  · exact List.nodup_range _
  · intro q₁ hq₁ q₂ hq₂ heq
    rw [List.mem_range] at hq₁ hq₂
    rw [List.getD_eq_getElem _ _ hq₁, List.getD_eq_getElem _ _ hq₂] at heq
    exact hnd.getElem_inj_iff.mp heq
  · rw [List.length_replicate, hlen]
    have hplt : p < perm.length := by omega
    have hmem : perm.getD p 0 ∈ perm := by
      rw [List.getD_eq_getElem _ _ hplt]
      exact List.getElem_mem _
    exact perm_range_mem_lt perm n hp _ hmem

theorem foldl_set_entries_lt (perm : List Nat) (n : Nat) (is : List Nat) :
    ∀ acc : List Nat, (∀ i ∈ is, i < n) → (∀ x ∈ acc, x < n) →
      ∀ x ∈ is.foldl (fun acc i => acc.set (perm.getD i 0) i) acc, x < n := by
  induction is with
  | nil => intro acc _ hacc x hx; exact hacc x hx
  | cons i rest ih =>
    intro acc his hacc x hx
    rw [List.foldl_cons] at hx
    refine ih (acc.set (perm.getD i 0) i)
      (fun q hq => his q (List.mem_cons_of_mem _ hq)) ?_ x hx
    intro y hy
    rcases List.mem_or_eq_of_mem_set hy with h | rfl
    · exact hacc y h
    · exact his _ (List.mem_cons_self ..)

theorem reversePerm_entries_lt (perm : List Nat) (hn : 0 < perm.length) :
    ∀ x ∈ reversePerm perm, x < perm.length := by
  unfold reversePerm
  apply foldl_set_entries_lt
  · intro i hi
    exact List.mem_range.mp hi
  · intro x hx
    rw [List.eq_of_mem_replicate hx]
    exact hn

theorem reverseOf_wf (perm : List Nat) (n : Nat)
    (hp : List.Perm perm (List.range n)) : (reverseOf perm).wf n := by
  have hlen := perm_range_length perm n hp
  unfold reverseOf
  by_cases h : isIdentityPerm perm = true
  · rw [if_pos h]
    exact hlen
  · rw [if_neg h]
    refine ⟨by rw [reversePerm_length, hlen], ?_⟩
    intro x hx
    have hpos : 0 < perm.length := by
      cases hperm : perm with
      | nil =>
        rw [hperm] at h
        exact absurd rfl h
      | cons a rest => simp [hperm]
    rw [← hlen]
    exact reversePerm_entries_lt perm hpos x hx

theorem reverseOf_at_apply (perm : List Nat) (n : Nat)
    (hp : List.Perm perm (List.range n)) (p : Nat) (hlt : p < n) :
    (reverseOf perm).at (perm.getD p 0) = p := by
  have hlen := perm_range_length perm n hp
  unfold reverseOf
  by_cases h : isIdentityPerm perm = true
  · rw [if_pos h]
    exact isIdentityPerm_getD perm h p (by omega)
  · rw [if_neg h]
    exact reversePerm_getD perm n hp p hlt

theorem exists_perm_index (perm : List Nat) (n : Nat)
    (hp : List.Perm perm (List.range n)) (i : Nat) (hi : i < n) :
    ∃ p, p < n ∧ perm.getD p 0 = i := by
  have hlen := perm_range_length perm n hp
  have hmem : i ∈ perm := hp.mem_iff.mpr (List.mem_range.mpr hi)
  obtain ⟨p, hplt, hpe⟩ := List.mem_iff_getElem.mp hmem
  exact ⟨p, hlen ▸ hplt, by rw [List.getD_eq_getElem _ _ hplt]; exact hpe⟩

theorem reverseOf_at_lt (perm : List Nat) (n : Nat)
    (hp : List.Perm perm (List.range n)) (i : Nat) (hi : i < n) :
    (reverseOf perm).at i < n := by
  obtain ⟨p, hplt, rfl⟩ := exists_perm_index perm n hp i hi
  rw [reverseOf_at_apply perm n hp p hplt]
  exact hplt

theorem reverseOf_at_inj (perm : List Nat) (n : Nat)
    (hp : List.Perm perm (List.range n)) (i j : Nat) (hi : i < n)
    (hj : j < n) (heq : (reverseOf perm).at i = (reverseOf perm).at j) :
    i = j := by
  obtain ⟨p, hplt, rfl⟩ := exists_perm_index perm n hp i hi
  obtain ⟨q, hqlt, rfl⟩ := exists_perm_index perm n hp j hj
  rw [reverseOf_at_apply perm n hp p hplt,
    reverseOf_at_apply perm n hp q hqlt] at heq
  rw [heq]

/-- Copying a list in permuted order and indexing through the reverse table
recovers the original entry. -/
theorem perm_map_at (l : List α) (d : α) (n : Nat) (hn : l.length = n)
    (perm : List Nat) (hp : List.Perm perm (List.range n)) (i : Nat)
    (hi : i < n) :
    (perm.map (fun p => l.getD p d))[(reverseOf perm).at i]? = l[i]? := by
  have hlen := perm_range_length perm n hp
  obtain ⟨p, hplt, hpe⟩ := exists_perm_index perm n hp i hi
  have hplt' : p < perm.length := by omega
  rw [← hpe, reverseOf_at_apply perm n hp p hplt]
  rw [List.getElem?_map, List.getElem?_eq_getElem hplt']
  have hentry : perm.getD p 0 < l.length := by
    rw [hn]
    apply perm_range_mem_lt perm n hp
    rw [List.getD_eq_getElem _ _ hplt']
    exact List.getElem_mem _
  rw [List.getElem?_eq_getElem hentry]
  simp only [Option.map_some', Option.some.injEq]
  rw [← List.getD_eq_getElem l d hentry]
  congr 1
  rw [List.getD_eq_getElem _ _ hplt']

/-! ## Option-mapM and canonical-map lemmas -/

theorem mapM_option_eq_some_iff (g : α → Option β) :
    ∀ (l : List α) (r : List β),
      l.mapM g = some r ↔ List.Forall₂ (fun a b => g a = some b) l r := by
  intro l
  induction l with
  | nil =>
    intro r
    constructor
    · intro h
      rw [List.mapM_nil] at h
      cases h
      exact List.Forall₂.nil
    · intro h
      cases h
      rfl
  | cons a l ih =>
    intro r
    constructor
    · intro h
      simp only [List.mapM_cons, Option.pure_def, Option.bind_eq_bind,
        Option.bind_eq_some, Option.some.injEq] at h
      obtain ⟨b, hb, bs, hbs, rfl⟩ := h
      exact List.Forall₂.cons hb ((ih bs).mp hbs)
    · intro h
      cases h with
      | cons hb htail =>
        simp only [List.mapM_cons, Option.pure_def, Option.bind_eq_bind,
          Option.bind_eq_some, Option.some.injEq]
        exact ⟨_, hb, _, (ih _).mpr htail, rfl⟩

theorem mapM_map_eq (f : α → γ) (g : γ → Option β) (l : List α) :
    (l.map f).mapM g = l.mapM (fun a => g (f a)) := by
  induction l with
  | nil => rfl
  | cons a l ih => simp only [List.map_cons, List.mapM_cons, ih]

theorem mapM_congr (g h : α → Option β) :
    ∀ l : List α, (∀ a ∈ l, g a = h a) → l.mapM g = l.mapM h := by
  intro l
  induction l with
  | nil => intro _; rfl
  | cons a l ih =>
    intro hc
    simp only [List.mapM_cons, hc a (List.mem_cons_self ..),
      ih (fun x hx => hc x (List.mem_cons_of_mem _ hx))]

theorem forall₂_perm_left {R : α → β → Prop} :
    ∀ {l₁ l₂ : List α}, List.Perm l₁ l₂ → ∀ {r : List β},
      List.Forall₂ R l₁ r →
      ∃ r', List.Forall₂ R l₂ r' ∧ List.Perm r r' := by
  intro l₁ l₂ hp
  induction hp with
  | nil =>
    intro r h
    cases h
    exact ⟨[], List.Forall₂.nil, List.Perm.refl _⟩
  | cons x _ ih =>
    intro r h
    cases h with
    | cons hb htail =>
      obtain ⟨r', hr', hperm⟩ := ih htail
      exact ⟨_ :: r', List.Forall₂.cons hb hr', hperm.cons _⟩
  | swap x y l =>
    intro r h
    cases h with
    | cons hb htail =>
      cases htail with
      | cons hb₂ htail₂ =>
        exact ⟨_ :: _ :: _, List.Forall₂.cons hb₂ (List.Forall₂.cons hb htail₂),
          List.Perm.swap ..⟩
  | trans _ _ ih₁ ih₂ =>
    intro r h
    obtain ⟨r₁, h₁, hp₁⟩ := ih₁ h
    obtain ⟨r₂, h₂, hp₂⟩ := ih₂ h₁
    exact ⟨r₂, h₂, hp₁.trans hp₂⟩

theorem insertEntry_mem (l : List (String × Json)) (e : String × Json) :
    ∀ x ∈ insertEntry l e, x = e ∨ x ∈ l := by
  induction l with
  | nil =>
    intro x hx
    rcases List.mem_singleton.mp hx with rfl
    exact Or.inl rfl
  | cons b bs ih =>
    obtain ⟨k, v⟩ := e
    obtain ⟨k', v'⟩ := b
    intro x hx
    unfold insertEntry at hx
    by_cases h1 : k < k'
    · rw [if_pos h1] at hx
      rcases List.mem_cons.mp hx with rfl | hx
      · exact Or.inl rfl
      · exact Or.inr hx
    · rw [if_neg h1] at hx
      by_cases h2 : k = k'
      · rw [if_pos h2] at hx
        rcases List.mem_cons.mp hx with rfl | hx
        · exact Or.inl rfl
        · exact Or.inr (List.mem_cons_of_mem _ hx)
      · rw [if_neg h2] at hx
        rcases List.mem_cons.mp hx with rfl | hx
        · exact Or.inr (List.mem_cons_self ..)
        · rcases ih x hx with h | h
          · exact Or.inl h
          · exact Or.inr (List.mem_cons_of_mem _ h)

theorem insertEntry_perm (l : List (String × Json)) (e : String × Json)
    (he : e.1 ∉ l.map Prod.fst) :
    List.Perm (insertEntry l e) (e :: l) := by
  induction l with
  | nil => exact List.Perm.refl _
  | cons b bs ih =>
    obtain ⟨k, v⟩ := e
    obtain ⟨k', v'⟩ := b
    unfold insertEntry
    by_cases h1 : k < k'
    · rw [if_pos h1]
    · rw [if_neg h1]
      by_cases h2 : k = k'
      · exact absurd (by simp [h2]) he
      · rw [if_neg h2]
        have hk : ((k, v) : String × Json).1 ∉ bs.map Prod.fst := by
          intro hmem
          exact he (by simpa using Or.inr (by simpa using hmem))
        exact ((ih hk).cons _).trans (List.Perm.swap ..)

theorem insertEntry_pairwise (l : List (String × Json))
    (hl : l.Pairwise (fun a b => a.1 < b.1)) (e : String × Json) :
    (insertEntry l e).Pairwise (fun a b => a.1 < b.1) := by
  induction l with
  | nil => simp [insertEntry]
  | cons b bs ih =>
    obtain ⟨k, v⟩ := e
    obtain ⟨k', v'⟩ := b
    rw [List.pairwise_cons] at hl
    obtain ⟨hb, hbs⟩ := hl
    unfold insertEntry
    by_cases h1 : k < k'
    · rw [if_pos h1]
      rw [List.pairwise_cons]
      constructor
      · intro x hx
        rcases List.mem_cons.mp hx with rfl | hxbs
        · exact h1
        · exact lt_trans h1 (hb x hxbs)
      · exact List.pairwise_cons.mpr ⟨hb, hbs⟩
    · rw [if_neg h1]
      by_cases h2 : k = k'
      · rw [if_pos h2]
        rw [List.pairwise_cons]
        refine ⟨?_, hbs⟩
        intro x hx
        show k < x.1
        rw [h2]
        exact hb x hx
      · rw [if_neg h2]
        rw [List.pairwise_cons]
        constructor
        · intro x hx
          rcases insertEntry_mem bs (k, v) x hx with rfl | hxbs
          · exact lt_of_le_of_ne (le_of_not_lt h1) (Ne.symm h2)
          · exact hb x hxbs
        · exact ih hbs

theorem canonObj_pairwise (es : List (String × Json)) :
    (canonObj es).Pairwise (fun a b => a.1 < b.1) := by
  suffices h : ∀ acc, acc.Pairwise (fun a b => a.1 < b.1) →
      (es.foldl insertEntry acc).Pairwise (fun a b => a.1 < b.1) from
    h [] List.Pairwise.nil
  induction es with
  | nil => intro acc hacc; exact hacc
  | cons e rest ih =>
    intro acc hacc
    exact ih _ (insertEntry_pairwise acc hacc e)

theorem foldl_insertEntry_perm :
    ∀ (es acc : List (String × Json)), ((acc ++ es).map Prod.fst).Nodup →
      List.Perm (es.foldl insertEntry acc) (acc ++ es) := by
  intro es
  induction es with
  | nil =>
    intro acc _
    simp
  | cons e rest ih =>
    intro acc h
    rw [List.foldl_cons]
    have hfresh : e.1 ∉ acc.map Prod.fst := by
      intro hmem
      rw [List.map_append, List.nodup_append] at h
      exact h.2.2 hmem (by simp)
    have hstep := insertEntry_perm acc e hfresh
    have hmid : List.Perm ((e :: acc) ++ rest) (acc ++ e :: rest) :=
      List.perm_middle.symm
    have hnd' : ((insertEntry acc e ++ rest).map Prod.fst).Nodup := by
      rw [(List.Perm.map Prod.fst ((hstep.append_right rest).trans hmid)).nodup_iff]
      exact h
    exact (ih (insertEntry acc e) hnd').trans
      ((hstep.append_right rest).trans hmid)

theorem canonObj_perm (es : List (String × Json))
    (h : (es.map Prod.fst).Nodup) : List.Perm (canonObj es) es := by
  simpa using foldl_insertEntry_perm es [] (by simpa using h)

theorem sorted_keys_perm_eq :
    ∀ (l₁ l₂ : List (String × Json)), List.Perm l₁ l₂ →
      l₁.Pairwise (fun a b => a.1 < b.1) →
      l₂.Pairwise (fun a b => a.1 < b.1) → l₁ = l₂ := by
  intro l₁
  induction l₁ with
  | nil =>
    intro l₂ hp _ _
    exact hp.nil_eq
  | cons e l ih =>
    intro l₂ hp h₁ h₂
    cases l₂ with
    | nil => exact absurd hp.symm.nil_eq (by simp)
    | cons e₂ t₂ =>
      have he : e = e₂ := by
        have he₁ : e ∈ e₂ :: t₂ := hp.mem_iff.mp (List.mem_cons_self ..)
        have he₂ : e₂ ∈ e :: l := hp.mem_iff.mpr (List.mem_cons_self ..)
        rcases List.mem_cons.mp he₁ with h | hmem₁
        · exact h
        · rcases List.mem_cons.mp he₂ with h | hmem₂
          · exact h.symm
          · have hlt₁ := (List.pairwise_cons.mp h₂).1 e hmem₁
            have hlt₂ := (List.pairwise_cons.mp h₁).1 e₂ hmem₂
            exact absurd (lt_trans hlt₁ hlt₂) (lt_irrefl _)
      subst he
      rw [ih t₂ hp.cons_inv (List.pairwise_cons.mp h₁).2
        (List.pairwise_cons.mp h₂).2]

theorem canonObj_eq_of_perm (es₁ es₂ : List (String × Json))
    (hp : List.Perm es₁ es₂) (h : (es₁.map Prod.fst).Nodup) :
    canonObj es₁ = canonObj es₂ := by
  have h₂ : (es₂.map Prod.fst).Nodup := by
    rw [← (List.Perm.map Prod.fst hp).nodup_iff]
    exact h
  exact sorted_keys_perm_eq _ _
    ((canonObj_perm es₁ h).trans (hp.trans (canonObj_perm es₂ h₂).symm))
    (canonObj_pairwise es₁) (canonObj_pairwise es₂)

/-! ## Mapping forms -/

theorem mapping_map_eq_mapIds (m : Mapping) (v : IValue) :
    m.map v = mapIds m.string.at m.iarray.at m.iobject.at v := by
  cases v <;> rfl

theorem mappingStrings_map_eq_mapIds (m : MappingStrings) (v : IValue) :
    m.map v = mapIds m.string.at id id v := by
  cases v <;> rfl

theorem mappingNoStrings_map_eq_mapIds (m : MappingNoStrings) (v : IValue) :
    m.map v = mapIds id m.iarray.at m.iobject.at v := by
  cases v <;> rfl

theorem Mapping.compose_map_apply (m : Mapping) (o : MappingNoStrings)
    (nS nA nO : Nat) (hma : m.iarray.wf nA) (hmo : m.iobject.wf nO)
    (hoa : o.iarray.wf nA) (hoo : o.iobject.wf nO) (v : IValue)
    (hv : idsBelow nS nA nO v) :
    (m.compose o).map v = o.map (m.map v) := by
  cases v with
  | array id =>
    simp only [Mapping.compose, Mapping.map, MappingNoStrings.map]
    rw [MappingImpl.at_compose m.iarray o.iarray nA hma hoa id hv]
  | object id =>
    simp only [Mapping.compose, Mapping.map, MappingNoStrings.map]
    rw [MappingImpl.at_compose m.iobject o.iobject nO hmo hoo id hv]
  | null => rfl
  | bool x => rfl
  | u64 x => rfl
  | i64 x => rfl
  | f64 x => rfl
  | string id => rfl

/-! ## Lookup preservation across a rewrite step -/

theorem lookupV_string (J : Jinterners) (fuel id : Nat) :
    lookupV J (fuel + 1) (.string id) = (J.string[id]?).map Json.str := rfl

theorem lookupV_array (J : Jinterners) (fuel id : Nat) :
    lookupV J (fuel + 1) (.array id) =
      (J.iarray[id]?).bind (fun s =>
        (s.mapM (lookupV J fuel)).bind (fun xs => some (Json.arr xs))) := rfl

theorem lookupV_object (J : Jinterners) (fuel id : Nat) :
    lookupV J (fuel + 1) (.object id) =
      (J.iobject[id]?).bind (fun s =>
        (s.mapM (fun e =>
          (J.string[e.1]?).bind (fun ks =>
            (lookupV J fuel e.2).bind (fun x => some (ks, x))))).bind
          (fun es => some (Json.obj (canonObj es)))) := rfl

set_option maxHeartbeats 1000000 in
/-- Looking a valid handle up in the rewritten context gives the same JSON
tree as looking the original handle up in the source context. -/
theorem step_preserves {J J' : Jinterners} {sigS sigA sigO : Nat → Nat}
    (hst : StepRel J J' sigS sigA sigO) (hwf : WF J) :
    ∀ (fuel : Nat) (v : IValue), validIn J v →
      lookupV J' fuel (mapIds sigS sigA sigO v) = lookupV J fuel v := by
  intro fuel
  induction fuel with
  | zero => intro v _; rfl
  | succ fuel ih =>
    intro v hv
    cases v with
    | null => rfl
    | bool x => rfl
    | u64 x => rfl
    | i64 x => rfl
    | f64 x => rfl
    | string id =>
      show lookupV J' (fuel + 1) (.string (sigS id)) = _
      rw [lookupV_string, lookupV_string, hst.strEq id hv]
    | array id =>
      have hid : id < J.iarray.length := hv
      have hsome : J.iarray[id]? = some (J.iarray.getD id []) := by
        rw [List.getElem?_eq_getElem hid, List.getD_eq_getElem _ _ hid]
      have hmem : J.iarray.getD id [] ∈ J.iarray := by
        rw [List.getD_eq_getElem _ _ hid]
        exact List.getElem_mem _
      show lookupV J' (fuel + 1) (.array (sigA id)) = _
      rw [lookupV_array, lookupV_array, hst.arrEq id hid, hsome,
        Option.some_bind, Option.some_bind, mapM_map_eq,
        mapM_congr _ (lookupV J fuel) _
          (fun a ha => ih a (hwf.arrays _ hmem a ha))]
    | object id =>
      have hid : id < J.iobject.length := hv
      obtain ⟨es', hes', hperm⟩ := hst.objEq id hid
      have hsome : J.iobject[id]? = some (J.iobject.getD id []) := by
        rw [List.getElem?_eq_getElem hid, List.getD_eq_getElem _ _ hid]
      have hmem : J.iobject.getD id [] ∈ J.iobject := by
        rw [List.getD_eq_getElem _ _ hid]
        exact List.getElem_mem _
      show lookupV J' (fuel + 1) (.object (sigO id)) = _
      rw [lookupV_object, lookupV_object, hes', hsome, Option.some_bind,
        Option.some_bind]
      have hmapped :
          ((J.iobject.getD id []).map
            (fun e => (sigS e.1, mapIds sigS sigA sigO e.2))).mapM
              (fun e => (J'.string[e.1]?).bind (fun ks =>
                (lookupV J' fuel e.2).bind (fun x => some (ks, x)))) =
          (J.iobject.getD id []).mapM
              (fun e => (J.string[e.1]?).bind (fun ks =>
                (lookupV J fuel e.2).bind (fun x => some (ks, x)))) := by
        rw [mapM_map_eq]
        apply mapM_congr
        intro e he
        simp only
        rw [hst.strEq e.1 (hwf.objectKeys _ hmem e he),
          ih e.2 (hwf.objectVals _ hmem e he)]
      cases hres : (J.iobject.getD id []).mapM
          (fun e => (J.string[e.1]?).bind (fun ks =>
            (lookupV J fuel e.2).bind (fun x => some (ks, x)))) with
      | none =>
        rw [hres] at hmapped
        cases hres' : es'.mapM
            (fun e => (J'.string[e.1]?).bind (fun ks =>
              (lookupV J' fuel e.2).bind (fun x => some (ks, x)))) with
        | none => rfl
        | some r'' =>
          exfalso
          have hf := (mapM_option_eq_some_iff _ es' r'').mp hres'
          obtain ⟨r₂, hf₂, _⟩ := forall₂_perm_left hperm hf
          have h₂ := (mapM_option_eq_some_iff _ _ r₂).mpr hf₂
          rw [hmapped] at h₂
          cases h₂
      | some r =>
        rw [hres] at hmapped
        have hf := (mapM_option_eq_some_iff _ _ r).mp hmapped
        obtain ⟨r', hf', hpr⟩ := forall₂_perm_left hperm.symm hf
        have hres' := (mapM_option_eq_some_iff _ es' r').mpr hf'
        rw [hres', Option.some_bind, Option.some_bind]
        have hfr := (mapM_option_eq_some_iff _ _ r).mp hres
        have hlen_er : (J.iobject.getD id []).length = r.length :=
          hfr.length_eq
        have hkey : ∀ i (h1 : i < (J.iobject.getD id []).length)
            (h2 : i < r.length),
            J.string[(J.iobject.getD id [])[i].1]? = some r[i].1 := by
          intro i h1 h2
          have hpt := (List.forall₂_iff_get.mp hfr).2 i h1 h2
          simp only [List.get_eq_getElem, Option.bind_eq_some,
            Option.some.injEq] at hpt
          obtain ⟨ks, hks, x, _, hpair⟩ := hpt
          rw [← hpair]
          exact hks
        have hrk : (r.map Prod.fst).Nodup := by
          rw [List.nodup_iff_injective_getElem]
          intro ⟨i, hi⟩ ⟨j, hj⟩ hij
          simp only [List.length_map] at hi hj
          simp only [List.getElem_map] at hij
          have hki := hkey i (by omega) hi
          have hkj := hkey j (by omega) hj
          have hkilt : (J.iobject.getD id [])[i].1 < J.string.length :=
            hwf.objectKeys _ hmem _ (List.getElem_mem _)
          have hkjlt : (J.iobject.getD id [])[j].1 < J.string.length :=
            hwf.objectKeys _ hmem _ (List.getElem_mem _)
          rw [List.getElem?_eq_getElem hkilt, Option.some.injEq] at hki
          rw [List.getElem?_eq_getElem hkjlt, Option.some.injEq] at hkj
          have hstr : J.string[(J.iobject.getD id [])[i].1] =
              J.string[(J.iobject.getD id [])[j].1] := by
            rw [hki, hkj, hij]
          have hkeq := hwf.stringsNodup.getElem_inj_iff.mp hstr
          have hsorted := hwf.objectsSorted _ hmem
          have hij' : i = j := by
            rcases Nat.lt_trichotomy i j with h' | h' | h'
            · have := List.pairwise_iff_getElem.mp hsorted i j
                (by omega) (by omega) h'
              omega
            · exact h'
            · have := List.pairwise_iff_getElem.mp hsorted j i
                (by omega) (by omega) h'
              omega
          exact Fin.ext hij'
        rw [canonObj_eq_of_perm r r' hpr hrk]

/-! ## The three optimization passes as rewrite steps -/

theorem perm_map_fun_at (g : Nat → α) (n : Nat) (perm : List Nat)
    (hp : List.Perm perm (List.range n)) (i : Nat) (hi : i < n) :
    (perm.map g)[(reverseOf perm).at i]? = some (g i) := by
  obtain ⟨p, hplt, hpe⟩ := exists_perm_index perm n hp i hi
  have hplt' : p < perm.length := by
    have := perm_range_length perm n hp
    omega
  rw [← hpe, reverseOf_at_apply perm n hp p hplt, List.getElem?_map,
    List.getElem?_eq_getElem hplt']
  simp only [Option.map_some', Option.some.injEq]
  rw [List.getD_eq_getElem _ _ hplt']

theorem StepRel.valid_map {J J' : Jinterners} {sigS sigA sigO : Nat → Nat}
    (hst : StepRel J J' sigS sigA sigO) (v : IValue) (hv : validIn J v) :
    validIn J' (mapIds sigS sigA sigO v) := by
  cases v with
  | string id =>
    show sigS id < J'.string.length
    rw [hst.strLen]
    exact hst.strMapLt id hv
  | array id =>
    show sigA id < J'.iarray.length
    rw [hst.arrLen]
    exact hst.arrMapLt id hv
  | object id =>
    show sigO id < J'.iobject.length
    rw [hst.objLen]
    exact hst.objMapLt id hv
  | null => trivial
  | bool x => trivial
  | u64 x => trivial
  | i64 x => trivial
  | f64 x => trivial

theorem sortEntries_pairwise_le (es : List (Nat × IValue)) :
    (sortEntries es).Pairwise (fun a b => a.1 ≤ b.1) := by
  have hs := stableSortBy_pairwise (fun a b => decide (a.1 ≤ b.1))
    (fun a b => by
      rcases Nat.le_total a.1 b.1 with h | h
      · exact Or.inl (decide_eq_true h)
      · exact Or.inr (decide_eq_true h))
    (fun a b c hab hbc =>
      decide_eq_true (Nat.le_trans (of_decide_eq_true hab)
        (of_decide_eq_true hbc)))
    es
  exact hs.imp (fun h => of_decide_eq_true h)

theorem sortEntries_perm (es : List (Nat × IValue)) :
    List.Perm (sortEntries es) es :=
  stableSortBy_perm _ es

theorem sortEntries_strict (es : List (Nat × IValue))
    (hnd : (es.map Prod.fst).Nodup) :
    (sortEntries es).Pairwise (fun a b => a.1 < b.1) := by
  have hnd' : ((sortEntries es).map Prod.fst).Nodup := by
    rw [(List.Perm.map Prod.fst (sortEntries_perm es)).nodup_iff]
    exact hnd
  have hne : (sortEntries es).Pairwise (fun a b => a.1 ≠ b.1) :=
    List.pairwise_map.mp hnd'
  exact ((sortEntries_pairwise_le es).and hne).imp
    (fun h => Nat.lt_of_le_of_ne h.1 h.2)

theorem optimizedMappingStrings_perm (J : Jinterners) :
    List.Perm (optimizedMappingStrings J) (List.range J.string.length) :=
  stableSortBy_perm _ _

theorem optimizedMappingArrays_perm (J : Jinterners) :
    List.Perm (optimizedMappingArrays J) (List.range J.iarray.length) :=
  stableSortBy_perm _ _

theorem optimizedMappingObjects_perm (J : Jinterners) :
    List.Perm (optimizedMappingObjects J) (List.range J.iobject.length) :=
  stableSortBy_perm _ _

/-- The full pass of `optimize_once` is a value-preserving rewrite step. -/
theorem stepRel_of_perms (J : Jinterners) (ps pa po : List Nat)
    (hps : List.Perm ps (List.range J.string.length))
    (hpa : List.Perm pa (List.range J.iarray.length))
    (hpo : List.Perm po (List.range J.iobject.length))
    (M : Mapping)
    (hMs : M.string = reverseOf ps) (hMa : M.iarray = reverseOf pa)
    (hMo : M.iobject = reverseOf po) :
    StepRel J
      ⟨ps.map (fun i => J.string.getD i ""),
       pa.map (fun i => (J.iarray.getD i []).map M.map),
       po.map (fun i =>
         sortEntries ((J.iobject.getD i []).map
           (fun e => (M.mapStrKey e.1, M.map e.2))))⟩
      M.string.at M.iarray.at M.iobject.at := by
  constructor
  · show (ps.map _).length = _
    rw [List.length_map]
    exact perm_range_length _ _ hps
  · show (pa.map _).length = _
    rw [List.length_map]
    exact perm_range_length _ _ hpa
  · show (po.map _).length = _
    rw [List.length_map]
    exact perm_range_length _ _ hpo
  · intro i hi
    rw [hMs]
    exact reverseOf_at_lt _ _ hps i hi
  · intro i hi
    rw [hMa]
    exact reverseOf_at_lt _ _ hpa i hi
  · intro i hi
    rw [hMo]
    exact reverseOf_at_lt _ _ hpo i hi
  · intro i hi
    show (ps.map _)[M.string.at i]? = _
    rw [hMs, perm_map_fun_at _ _ _ hps i hi, List.getElem?_eq_getElem hi,
      List.getD_eq_getElem _ _ hi]
  · intro i hi
    show (pa.map _)[M.iarray.at i]? = _
    have hx : M.iarray.at i = (reverseOf pa).at i := by rw [hMa]
    rw [hx, perm_map_fun_at _ _ _ hpa i hi]
    simp only [Option.some.injEq]
    refine List.map_congr_left (fun a _ => ?_)
    rw [mapping_map_eq_mapIds]
  · intro i hi
    show ∃ es', (po.map _)[M.iobject.at i]? = some es' ∧ _
    have hx : M.iobject.at i = (reverseOf po).at i := by rw [hMo]
    rw [hx]
    refine ⟨_, perm_map_fun_at _ _ _ hpo i hi, ?_⟩
    have hmc : ((J.iobject.getD i []).map
          (fun e => (M.mapStrKey e.1, M.map e.2)))
        = ((J.iobject.getD i []).map
          (fun e => (M.string.at e.1, mapIds M.string.at M.iarray.at
            M.iobject.at e.2))) :=
      List.map_congr_left (fun a _ => by rw [mapping_map_eq_mapIds]; rfl)
    rw [hmc]
    exact sortEntries_perm _

/-- The strings-only pass of `optimize_once_strings` is a rewrite step with
identity array/object maps. -/
theorem stepRel_strings (J : Jinterners) (ps : List Nat)
    (hps : List.Perm ps (List.range J.string.length))
    (M : MappingStrings) (hMs : M.string = reverseOf ps) :
    StepRel J
      ⟨ps.map (fun i => J.string.getD i ""),
       J.iarray.map (fun s => s.map M.map),
       J.iobject.map (fun o =>
         sortEntries (o.map (fun e => (M.mapStrKey e.1, M.map e.2))))⟩
      M.string.at id id := by
  constructor
  · show (ps.map _).length = _
    rw [List.length_map]
    exact perm_range_length _ _ hps
  · show (J.iarray.map _).length = _
    rw [List.length_map]
  · show (J.iobject.map _).length = _
    rw [List.length_map]
  · intro i hi
    rw [hMs]
    exact reverseOf_at_lt _ _ hps i hi
  · intro i hi
    exact hi
  · intro i hi
    exact hi
  · intro i hi
    show (ps.map _)[M.string.at i]? = _
    rw [hMs, perm_map_fun_at _ _ _ hps i hi, List.getElem?_eq_getElem hi,
      List.getD_eq_getElem _ _ hi]
  · intro i hi
    show (J.iarray.map _)[i]? = _
    rw [List.getElem?_map, List.getElem?_eq_getElem hi,
      List.getD_eq_getElem _ _ hi]
    simp only [Option.map_some', Option.some.injEq]
    refine List.map_congr_left (fun a _ => ?_)
    rw [mappingStrings_map_eq_mapIds]
  · intro i hi
    show ∃ es', (J.iobject.map _)[i]? = some es' ∧ _
    rw [List.getElem?_map, List.getElem?_eq_getElem hi]
    refine ⟨_, rfl, ?_⟩
    rw [List.getD_eq_getElem _ _ hi]
    show (sortEntries ((J.iobject[i]).map
      (fun e => (M.mapStrKey e.1, M.map e.2)))).Perm _
    have hmc : ((J.iobject[i]).map
          (fun e => (M.mapStrKey e.1, M.map e.2)))
        = ((J.iobject[i]).map
          (fun e => (M.string.at e.1, mapIds M.string.at id id e.2))) :=
      List.map_congr_left (fun a _ =>
        by rw [mappingStrings_map_eq_mapIds]; rfl)
    rw [hmc]
    exact sortEntries_perm _

/-- The arrays/objects pass of `optimize_once_no_strings` is a rewrite step
with an identity string map; object entries keep their keys and order. -/
theorem stepRel_noStrings (J : Jinterners) (pa po : List Nat)
    (hpa : List.Perm pa (List.range J.iarray.length))
    (hpo : List.Perm po (List.range J.iobject.length))
    (M : MappingNoStrings)
    (hMa : M.iarray = reverseOf pa) (hMo : M.iobject = reverseOf po) :
    StepRel J
      ⟨J.string,
       pa.map (fun i => (J.iarray.getD i []).map M.map),
       po.map (fun i =>
         (J.iobject.getD i []).map (fun e => (e.1, M.map e.2)))⟩
      id M.iarray.at M.iobject.at := by
  constructor
  · rfl
  · show (pa.map _).length = _
    rw [List.length_map]
    exact perm_range_length _ _ hpa
  · show (po.map _).length = _
    rw [List.length_map]
    exact perm_range_length _ _ hpo
  · intro i hi
    exact hi
  · intro i hi
    rw [hMa]
    exact reverseOf_at_lt _ _ hpa i hi
  · intro i hi
    rw [hMo]
    exact reverseOf_at_lt _ _ hpo i hi
  · intro i hi
    rfl
  · intro i hi
    show (pa.map _)[M.iarray.at i]? = _
    have hx : M.iarray.at i = (reverseOf pa).at i := by rw [hMa]
    rw [hx, perm_map_fun_at _ _ _ hpa i hi]
    simp only [Option.some.injEq]
    refine List.map_congr_left (fun a _ => ?_)
    rw [mappingNoStrings_map_eq_mapIds]
  · intro i hi
    show ∃ es', (po.map _)[M.iobject.at i]? = some es' ∧ _
    have hx : M.iobject.at i = (reverseOf po).at i := by rw [hMo]
    rw [hx]
    refine ⟨_, perm_map_fun_at _ _ _ hpo i hi, ?_⟩
    have hmc : ((J.iobject.getD i []).map (fun e => (e.1, M.map e.2)))
        = ((J.iobject.getD i []).map
          (fun e => (id e.1, mapIds id M.iarray.at M.iobject.at e.2))) :=
      List.map_congr_left (fun a _ =>
        by rw [mappingNoStrings_map_eq_mapIds]; rfl)
    rw [hmc]

/-! ## The passes preserve the context invariants -/

/-- Rewriting the keys of a strictly sorted entry slice by an injective map
and re-sorting (`object.sort_unstable_by_key`) yields a strictly sorted
slice again. -/
theorem sorted_mapped_entries_strict (nS : Nat) (o : List (Nat × IValue))
    (hsorted : o.Pairwise (fun a b => a.1 < b.1))
    (hkeys : ∀ e ∈ o, e.1 < nS)
    (sig : Nat → Nat)
    (hinj : ∀ i j, i < nS → j < nS → sig i = sig j → i = j)
    (f : Nat × IValue → Nat × IValue)
    (hf : ∀ e, (f e).1 = sig e.1) :
    (sortEntries (o.map f)).Pairwise (fun a b => a.1 < b.1) := by
  apply sortEntries_strict
  have h1 : (o.map f).map Prod.fst = (o.map Prod.fst).map sig := by
    rw [List.map_map, List.map_map]
    exact List.map_congr_left (fun e _ => hf e)
  rw [h1]
  apply List.Nodup.map_on
  · intro x hx y hy hxy
    obtain ⟨e, he, rfl⟩ := List.mem_map.mp hx
    obtain ⟨e', he', rfl⟩ := List.mem_map.mp hy
    rw [hinj e.1 e'.1 (hkeys e he) (hkeys e' he') hxy]
  · exact (List.pairwise_map.mpr hsorted).imp Nat.ne_of_lt

theorem getD_mem_of_lt (l : List α) (d : α) (p : Nat) (hp : p < l.length) :
    l.getD p d ∈ l := by
  rw [List.getD_eq_getElem _ _ hp]
  exact List.getElem_mem _

/-- The destination of the full `optimize_once` pass is well-formed. -/
theorem wf_optimizeOnce_dest (J : Jinterners) (hwf : WF J)
    (ps pa po : List Nat)
    (hps : List.Perm ps (List.range J.string.length))
    (hpa : List.Perm pa (List.range J.iarray.length))
    (hpo : List.Perm po (List.range J.iobject.length))
    (M : Mapping)
    (hMs : M.string = reverseOf ps) (hMa : M.iarray = reverseOf pa)
    (hMo : M.iobject = reverseOf po) :
    WF ⟨ps.map (fun i => J.string.getD i ""),
        pa.map (fun i => (J.iarray.getD i []).map M.map),
        po.map (fun i =>
          sortEntries ((J.iobject.getD i []).map
            (fun e => (M.mapStrKey e.1, M.map e.2))))⟩ := by
  have hst := stepRel_of_perms J ps pa po hps hpa hpo M hMs hMa hMo
  constructor
  · show (ps.map (fun i => J.string.getD i "")).Nodup
    exact (map_getD_perm J.string "" ps hps).nodup_iff.mpr hwf.stringsNodup
  · intro s hs v hv
    simp only [List.mem_map] at hs
    obtain ⟨p, hp, rfl⟩ := hs
    have hplt : p < J.iarray.length := perm_range_mem_lt _ _ hpa p hp
    simp only [List.mem_map] at hv
    obtain ⟨w, hw, rfl⟩ := hv
    have hwv : validIn J w :=
      hwf.arrays _ (getD_mem_of_lt _ _ p hplt) w hw
    rw [mapping_map_eq_mapIds]
    exact hst.valid_map w hwv
  · intro o ho
    simp only [List.mem_map] at ho
    obtain ⟨p, hp, rfl⟩ := ho
    have hplt : p < J.iobject.length := perm_range_mem_lt _ _ hpo p hp
    have hsl := getD_mem_of_lt J.iobject [] p hplt
    refine sorted_mapped_entries_strict J.string.length _
      (hwf.objectsSorted _ hsl) (hwf.objectKeys _ hsl) M.string.at
      ?_ _ (fun e => rfl)
    intro i j hi hj hij
    rw [hMs] at hij
    exact reverseOf_at_inj _ _ hps i j hi hj hij
  · intro o ho e he
    simp only [List.mem_map] at ho
    obtain ⟨p, hp, rfl⟩ := ho
    have hplt : p < J.iobject.length := perm_range_mem_lt _ _ hpo p hp
    have hsl := getD_mem_of_lt J.iobject [] p hplt
    have he' := (sortEntries_perm _).mem_iff.mp he
    simp only [List.mem_map] at he'
    obtain ⟨e0, he0, rfl⟩ := he'
    show M.mapStrKey e0.1 < (ps.map _).length
    rw [List.length_map, perm_range_length _ _ hps]
    show M.string.at e0.1 < _
    rw [hMs]
    exact reverseOf_at_lt _ _ hps _ (hwf.objectKeys _ hsl e0 he0)
  · intro o ho e he
    simp only [List.mem_map] at ho
    obtain ⟨p, hp, rfl⟩ := ho
    have hplt : p < J.iobject.length := perm_range_mem_lt _ _ hpo p hp
    have hsl := getD_mem_of_lt J.iobject [] p hplt
    have he' := (sortEntries_perm _).mem_iff.mp he
    simp only [List.mem_map] at he'
    obtain ⟨e0, he0, rfl⟩ := he'
    show validIn _ (M.map e0.2)
    rw [mapping_map_eq_mapIds]
    exact hst.valid_map e0.2 (hwf.objectVals _ hsl e0 he0)

/-- The destination of the strings-only pass is well-formed. -/
theorem wf_optimizeOnceStrings_dest (J : Jinterners) (hwf : WF J)
    (ps : List Nat)
    (hps : List.Perm ps (List.range J.string.length))
    (M : MappingStrings) (hMs : M.string = reverseOf ps) :
    WF ⟨ps.map (fun i => J.string.getD i ""),
        J.iarray.map (fun s => s.map M.map),
        J.iobject.map (fun o =>
          sortEntries (o.map (fun e => (M.mapStrKey e.1, M.map e.2))))⟩ := by
  have hst := stepRel_strings J ps hps M hMs
  constructor
  · show (ps.map (fun i => J.string.getD i "")).Nodup
    exact (map_getD_perm J.string "" ps hps).nodup_iff.mpr hwf.stringsNodup
  · intro s hs v hv
    simp only [List.mem_map] at hs
    obtain ⟨s0, hs0, rfl⟩ := hs
    simp only [List.mem_map] at hv
    obtain ⟨w, hw, rfl⟩ := hv
    rw [mappingStrings_map_eq_mapIds]
    exact hst.valid_map w (hwf.arrays _ hs0 w hw)
  · intro o ho
    simp only [List.mem_map] at ho
    obtain ⟨o0, ho0, rfl⟩ := ho
    refine sorted_mapped_entries_strict J.string.length _
      (hwf.objectsSorted _ ho0) (hwf.objectKeys _ ho0) M.string.at
      ?_ _ (fun e => rfl)
    intro i j hi hj hij
    rw [hMs] at hij
    exact reverseOf_at_inj _ _ hps i j hi hj hij
  · intro o ho e he
    simp only [List.mem_map] at ho
    obtain ⟨o0, ho0, rfl⟩ := ho
    have he' := (sortEntries_perm _).mem_iff.mp he
    simp only [List.mem_map] at he'
    obtain ⟨e0, he0, rfl⟩ := he'
    show M.mapStrKey e0.1 < (ps.map _).length
    rw [List.length_map, perm_range_length _ _ hps]
    show M.string.at e0.1 < _
    rw [hMs]
    exact reverseOf_at_lt _ _ hps _ (hwf.objectKeys _ ho0 e0 he0)
  · intro o ho e he
    simp only [List.mem_map] at ho
    obtain ⟨o0, ho0, rfl⟩ := ho
    have he' := (sortEntries_perm _).mem_iff.mp he
    simp only [List.mem_map] at he'
    obtain ⟨e0, he0, rfl⟩ := he'
    show validIn _ (M.map e0.2)
    rw [mappingStrings_map_eq_mapIds]
    exact hst.valid_map e0.2 (hwf.objectVals _ ho0 e0 he0)

/-- The destination of the arrays/objects pass is well-formed; object keys
and their order are untouched. -/
theorem wf_optimizeOnceNoStrings_dest (J : Jinterners) (hwf : WF J)
    (pa po : List Nat)
    (hpa : List.Perm pa (List.range J.iarray.length))
    (hpo : List.Perm po (List.range J.iobject.length))
    (M : MappingNoStrings)
    (hMa : M.iarray = reverseOf pa) (hMo : M.iobject = reverseOf po) :
    WF ⟨J.string,
        pa.map (fun i => (J.iarray.getD i []).map M.map),
        po.map (fun i =>
          (J.iobject.getD i []).map (fun e => (e.1, M.map e.2)))⟩ := by
  have hst := stepRel_noStrings J pa po hpa hpo M hMa hMo
  constructor
  · exact hwf.stringsNodup
  · intro s hs v hv
    simp only [List.mem_map] at hs
    obtain ⟨p, hp, rfl⟩ := hs
    have hplt : p < J.iarray.length := perm_range_mem_lt _ _ hpa p hp
    simp only [List.mem_map] at hv
    obtain ⟨w, hw, rfl⟩ := hv
    rw [mappingNoStrings_map_eq_mapIds]
    exact hst.valid_map w (hwf.arrays _ (getD_mem_of_lt _ _ p hplt) w hw)
  · intro o ho
    simp only [List.mem_map] at ho
    obtain ⟨p, hp, rfl⟩ := ho
    have hplt : p < J.iobject.length := perm_range_mem_lt _ _ hpo p hp
    exact List.Pairwise.map _ (fun a b h => h)
      (hwf.objectsSorted _ (getD_mem_of_lt _ _ p hplt))
  · intro o ho e he
    simp only [List.mem_map] at ho
    obtain ⟨p, hp, rfl⟩ := ho
    have hplt : p < J.iobject.length := perm_range_mem_lt _ _ hpo p hp
    simp only [List.mem_map] at he
    obtain ⟨e0, he0, rfl⟩ := he
    exact hwf.objectKeys _ (getD_mem_of_lt _ _ p hplt) e0 he0
  · intro o ho e he
    simp only [List.mem_map] at ho
    obtain ⟨p, hp, rfl⟩ := ho
    have hplt : p < J.iobject.length := perm_range_mem_lt _ _ hpo p hp
    simp only [List.mem_map] at he
    obtain ⟨e0, he0, rfl⟩ := he
    show validIn _ (M.map e0.2)
    rw [mappingNoStrings_map_eq_mapIds]
    exact hst.valid_map e0.2
      (hwf.objectVals _ (getD_mem_of_lt _ _ p hplt) e0 he0)

/-! ## Unfolding the passes on a successful return -/

theorem optimizeOnce_some (J : Jinterners) (dest : Jinterners) (m : Mapping)
    (h : optimizeOnce J = some (dest, m)) :
    m = ⟨reverseOf (optimizedMappingStrings J),
         reverseOf (optimizedMappingArrays J),
         reverseOf (optimizedMappingObjects J)⟩ ∧
    dest = ⟨(optimizedMappingStrings J).map (fun i => J.string.getD i ""),
            (optimizedMappingArrays J).map
              (fun i => (J.iarray.getD i []).map m.map),
            (optimizedMappingObjects J).map (fun i =>
              sortEntries ((J.iobject.getD i []).map
                (fun e => (m.mapStrKey e.1, m.map e.2))))⟩ := by
  simp only [optimizeOnce] at h
  split at h
  · cases h
  · rw [Option.some.injEq, Prod.mk.injEq] at h
    obtain ⟨h1, h2⟩ := h
    subst h2
    exact ⟨rfl, h1.symm⟩

theorem optimizeOnceStrings_some (J : Jinterners) (dest : Jinterners)
    (m : MappingStrings) (h : optimizeOnceStrings J = some (dest, m)) :
    m = ⟨reverseOf (optimizedMappingStrings J)⟩ ∧
    dest = ⟨(optimizedMappingStrings J).map (fun i => J.string.getD i ""),
            J.iarray.map (fun s => s.map m.map),
            J.iobject.map (fun o =>
              sortEntries (o.map
                (fun e => (m.mapStrKey e.1, m.map e.2))))⟩ := by
  simp only [optimizeOnceStrings] at h
  split at h
  · cases h
  · rw [Option.some.injEq, Prod.mk.injEq] at h
    obtain ⟨h1, h2⟩ := h
    subst h2
    exact ⟨rfl, h1.symm⟩

theorem optimizeOnceNoStrings_some (J : Jinterners) (ia : List (List IValue))
    (io : List (List (Nat × IValue))) (m : MappingNoStrings)
    (h : optimizeOnceNoStrings J = some (ia, io, m)) :
    m = ⟨reverseOf (optimizedMappingArrays J),
         reverseOf (optimizedMappingObjects J)⟩ ∧
    ia = (optimizedMappingArrays J).map
      (fun i => (J.iarray.getD i []).map m.map) ∧
    io = (optimizedMappingObjects J).map (fun i =>
      (J.iobject.getD i []).map (fun e => (e.1, m.map e.2))) := by
  simp only [optimizeOnceNoStrings] at h
  split at h
  · cases h
  · rw [Option.some.injEq, Prod.mk.injEq, Prod.mk.injEq] at h
    obtain ⟨h1, h2, h3⟩ := h
    subst h3
    exact ⟨rfl, h1.symm, h2.symm⟩

theorem mappingStrings_promote_map (m : MappingStrings) (nA nO : Nat)
    (v : IValue) : (m.promote nA nO).map v = m.map v := by
  cases v <;> rfl

theorem mappingNoStrings_promote_map (m : MappingNoStrings) (nS : Nat)
    (v : IValue) : (m.promote nS).map v = m.map v := by
  cases v <;> rfl

/-! ## The optimize loop keeps its invariant -/

theorem optInv_init (self : Jinterners) (hwf : WF self) :
    OptInv self ((optimizeOnceStrings self).map (fun p =>
      (p.1, p.2.promote p.1.iarray.length p.1.iobject.length))) := by
  cases hS : optimizeOnceStrings self with
  | none => trivial
  | some p =>
    obtain ⟨dest, m⟩ := p
    obtain ⟨hm, hdest⟩ := optimizeOnceStrings_some self dest m hS
    have hps := optimizedMappingStrings_perm self
    have hMs : m.string = reverseOf (optimizedMappingStrings self) := by
      rw [hm]
    have hst := stepRel_strings self _ hps m hMs
    rw [← hdest] at hst
    have hwfd : WF dest := by
      rw [hdest]
      exact wf_optimizeOnceStrings_dest self hwf _ hps m hMs
    have hlS : dest.string.length = self.string.length := hst.strLen
    have hlA : dest.iarray.length = self.iarray.length := hst.arrLen
    have hlO : dest.iobject.length = self.iobject.length := hst.objLen
    show OptInv self (some (dest,
      m.promote dest.iarray.length dest.iobject.length))
    refine ⟨hwfd, hlS, hlA, hlO, ?_, ?_, ?_, ?_, ?_⟩
    · show m.string.wf _
      rw [hMs]
      exact reverseOf_wf _ _ hps
    · show dest.iarray.length = self.iarray.length
      exact hlA
    · show dest.iobject.length = self.iobject.length
      exact hlO
    · intro v hv
      rw [mappingStrings_promote_map, mappingStrings_map_eq_mapIds]
      exact hst.valid_map v hv
    · intro fuel v hv
      rw [mappingStrings_promote_map, mappingStrings_map_eq_mapIds]
      exact step_preserves hst hwf fuel v hv

theorem optimizeLoop_inv (self : Jinterners) (hwf : WF self)
    (limit : Option Nat) :
    ∀ (fuel i : Nat) (opt : Option (Jinterners × Mapping)),
      OptInv self opt → OptInv self (optimizeLoop self limit fuel i opt) := by
  intro fuel
  induction fuel with
  | zero =>
    intro i opt hinv
    exact hinv
  | succ fuel ih =>
    intro i opt hinv
    cases opt with
    | none =>
      simp only [optimizeLoop]
      split
      · trivial
      · cases hN : optimizeOnceNoStrings self with
        | none =>
          simp only [hN]
          trivial
        | some q =>
          obtain ⟨ia, q'⟩ := q
          obtain ⟨io, mno⟩ := q'
          simp only [hN]
          obtain ⟨hm, hia, hio⟩ := optimizeOnceNoStrings_some self ia io mno hN
          have hpa := optimizedMappingArrays_perm self
          have hpo := optimizedMappingObjects_perm self
          have hMa : mno.iarray = reverseOf (optimizedMappingArrays self) := by
            rw [hm]
          have hMo : mno.iobject =
              reverseOf (optimizedMappingObjects self) := by
            rw [hm]
          have hst := stepRel_noStrings self _ _ hpa hpo mno hMa hMo
          have hj' : (⟨self.string, ia, io⟩ : Jinterners) =
              ⟨self.string,
               (optimizedMappingArrays self).map
                 (fun i => (self.iarray.getD i []).map mno.map),
               (optimizedMappingObjects self).map (fun i =>
                 (self.iobject.getD i []).map
                   (fun e => (e.1, mno.map e.2)))⟩ := by
            rw [hia, hio]
          rw [← hj'] at hst
          have hwfd : WF (⟨self.string, ia, io⟩ : Jinterners) := by
            rw [hj']
            exact wf_optimizeOnceNoStrings_dest self hwf _ _ hpa hpo mno
              hMa hMo
          apply ih
          refine ⟨hwfd, hst.strLen, hst.arrLen, hst.objLen, rfl, ?_, ?_,
            ?_, ?_⟩
          · show mno.iarray.wf _
            rw [hMa]
            exact reverseOf_wf _ _ hpa
          · show mno.iobject.wf _
            rw [hMo]
            exact reverseOf_wf _ _ hpo
          · intro v hv
            rw [mappingNoStrings_promote_map, mappingNoStrings_map_eq_mapIds]
            exact hst.valid_map v hv
          · intro fuel' v hv
            rw [mappingNoStrings_promote_map, mappingNoStrings_map_eq_mapIds]
            exact step_preserves hst hwf fuel' v hv
    | some p =>
      obtain ⟨j, m⟩ := p
      obtain ⟨hwfj, hlS, hlA, hlO, hwS, hwA, hwO, hval, hlook⟩ := hinv
      simp only [optimizeLoop]
      split
      · exact ⟨hwfj, hlS, hlA, hlO, hwS, hwA, hwO, hval, hlook⟩
      · cases hN : optimizeOnceNoStrings j with
        | none =>
          simp only [hN]
          exact ⟨hwfj, hlS, hlA, hlO, hwS, hwA, hwO, hval, hlook⟩
        | some q =>
          obtain ⟨ia, q'⟩ := q
          obtain ⟨io, mno⟩ := q'
          simp only [hN]
          obtain ⟨hm, hia, hio⟩ := optimizeOnceNoStrings_some j ia io mno hN
          have hpa := optimizedMappingArrays_perm j
          have hpo := optimizedMappingObjects_perm j
          have hMa : mno.iarray = reverseOf (optimizedMappingArrays j) := by
            rw [hm]
          have hMo : mno.iobject = reverseOf (optimizedMappingObjects j) := by
            rw [hm]
          have hst := stepRel_noStrings j _ _ hpa hpo mno hMa hMo
          have hj' : (⟨j.string, ia, io⟩ : Jinterners) =
              ⟨j.string,
               (optimizedMappingArrays j).map
                 (fun i => (j.iarray.getD i []).map mno.map),
               (optimizedMappingObjects j).map (fun i =>
                 (j.iobject.getD i []).map
                   (fun e => (e.1, mno.map e.2)))⟩ := by
            rw [hia, hio]
          rw [← hj'] at hst
          have hwfd : WF (⟨j.string, ia, io⟩ : Jinterners) := by
            rw [hj']
            exact wf_optimizeOnceNoStrings_dest j hwfj _ _ hpa hpo mno hMa hMo
          have hwA' : mno.iarray.wf self.iarray.length := by
            rw [hMa, ← hlA]
            exact reverseOf_wf _ _ hpa
          have hwO' : mno.iobject.wf self.iobject.length := by
            rw [hMo, ← hlO]
            exact reverseOf_wf _ _ hpo
          have hcomp : ∀ v, validIn self v →
              (m.compose mno).map v = mno.map (m.map v) := fun v hv =>
            Mapping.compose_map_apply m mno self.string.length
              self.iarray.length self.iobject.length hwA hwO hwA' hwO' v hv
          apply ih
          refine ⟨hwfd, ?_, ?_, ?_, hwS, ?_, ?_, ?_, ?_⟩
          · rw [hst.strLen]
            exact hlS
          · rw [hst.arrLen]
            exact hlA
          · rw [hst.objLen]
            exact hlO
          · show (m.iarray.compose mno.iarray).wf _
            exact MappingImpl.wf_compose _ _ _ hwA hwA'
          · show (m.iobject.compose mno.iobject).wf _
            exact MappingImpl.wf_compose _ _ _ hwO hwO'
          · intro v hv
            rw [hcomp v hv, mappingNoStrings_map_eq_mapIds]
            exact hst.valid_map (m.map v) (hval v hv)
          · intro fuel' v hv
            rw [hcomp v hv, mappingNoStrings_map_eq_mapIds,
              step_preserves hst hwfj fuel' (m.map v) (hval v hv)]
            exact hlook fuel' v hv

/-! ## Keys interned by the serializer -/

theorem internString_extends (J : Jinterners) (s : String) :
    ∃ t, (internString J s).2.string = J.string ++ t := by
  unfold internString
  cases hf : J.string.findIdx? (· == s) with
  | none => exact ⟨[s], rfl⟩
  | some i => exact ⟨[], (List.append_nil _).symm⟩

theorem internKeys_extends (kvs : List (String × IValue)) :
    ∀ J : Jinterners, ∃ t, (internKeys J kvs).2.string = J.string ++ t := by
  induction kvs with
  | nil =>
    intro J
    exact ⟨[], (List.append_nil _).symm⟩
  | cons kv rest ih =>
    intro J
    obtain ⟨k, v⟩ := kv
    obtain ⟨t1, ht1⟩ := internString_extends J k
    obtain ⟨t2, ht2⟩ := ih (internString J k).2
    exact ⟨t1 ++ t2, by
      show (internKeys (internString J k).2 rest).2.string = _
      rw [ht2, ht1, List.append_assoc]⟩

/-- Each interned key id denotes its source key string in the final string
arena, values are kept verbatim, entry for entry. -/
theorem internKeys_spec (kvs : List (String × IValue)) :
    ∀ J : Jinterners,
      List.Forall₂ (fun (kv : String × IValue) (e : Nat × IValue) =>
        (internKeys J kvs).2.string[e.1]? = some kv.1 ∧ e.2 = kv.2)
        kvs (internKeys J kvs).1 := by
  induction kvs with
  | nil =>
    intro J
    exact List.Forall₂.nil
  | cons kv rest ih =>
    intro J
    obtain ⟨k, v⟩ := kv
    show List.Forall₂ _ _ (((internString J k).1, v) ::
      (internKeys (internString J k).2 rest).1)
    refine List.Forall₂.cons ⟨?_, rfl⟩ ?_
    · obtain ⟨hget, _, _⟩ := internString_spec J k
      obtain ⟨t, ht⟩ := internKeys_extends rest (internString J k).2
      show (internKeys (internString J k).2 rest).2.string[_]? = _
      rw [ht, List.getElem?_append_left]
      · exact hget
      · exact (List.getElem?_eq_some.mp hget).1
    · exact ih (internString J k).2

theorem forall₂_mem_right {R : α → β → Prop} :
    ∀ {l₁ : List α} {l₂ : List β}, List.Forall₂ R l₁ l₂ →
      ∀ b ∈ l₂, ∃ a ∈ l₁, R a b := by
  intro l₁ l₂ h
  induction h with
  | nil =>
    intro b hb
    cases hb
  | cons hr ht ih =>
    intro b hb
    cases hb with
    | head =>
      exact ⟨_, List.mem_cons_self _ _, hr⟩
    | tail _ hb' =>
      obtain ⟨a, ha, hra⟩ := ih b hb'
      exact ⟨a, List.mem_cons_of_mem _ ha, hra⟩

/-- Distinct collected key strings intern to distinct key ids. -/
theorem internKeys_ids_nodup (kvs : List (String × IValue)) :
    ∀ J : Jinterners, (kvs.map Prod.fst).Nodup →
      ((internKeys J kvs).1.map Prod.fst).Nodup := by
  induction kvs with
  | nil =>
    intro J _
    exact List.Pairwise.nil
  | cons kv rest ih =>
    intro J hnd
    obtain ⟨k, v⟩ := kv
    simp only [List.map_cons, List.nodup_cons] at hnd
    show ((((internString J k).1, v) ::
      (internKeys (internString J k).2 rest).1).map Prod.fst).Nodup
    rw [List.map_cons, List.nodup_cons]
    constructor
    · intro hmem
      obtain ⟨e, he, heq⟩ := List.mem_map.mp hmem
      obtain ⟨kv', hkv', hrel, _⟩ :=
        forall₂_mem_right (internKeys_spec rest (internString J k).2) e he
      obtain ⟨hget, _, _⟩ := internString_spec J k
      obtain ⟨t, ht⟩ := internKeys_extends rest (internString J k).2
      have hget' : (internKeys (internString J k).2 rest).2.string[
          (internString J k).1]? = some k := by
        rw [ht, List.getElem?_append_left]
        · exact hget
        · exact (List.getElem?_eq_some.mp hget).1
      rw [heq, hget'] at hrel
      have hk : kv'.1 = k := by
        injection hrel with h
        exact h.symm
      exact hnd.1 (hk ▸ List.mem_map_of_mem Prod.fst hkv')
    · exact ih (internString J k).2 hnd.2

/-! ## Sortedness of stored object slices (I3) -/

/-- C3 (amended): what the serializer's finalization stores is always sorted
by key id, and strictly sorted whenever the collected key strings are
distinct (as when interning a tree, whose maps hold each key once); the
resort of the optimization pass is strictly sorted from any well-formed
context. With a repeated key the serializer stores equal adjacent key ids,
so strictness as claimed for every producible object fails
(`object_sortedness_counterexample`). -/
theorem object_sortedness (J : Jinterners) (kvs : List (String × IValue)) :
    (∀ oid J', finalizeObject J kvs = (.object oid, J') →
      ∃ es, J'.iobject[oid]? = some es ∧
        es.Pairwise (fun a b => a.1 ≤ b.1) ∧
        ((kvs.map Prod.fst).Nodup →
          es.Pairwise (fun a b => a.1 < b.1))) ∧
    (WF J → ∀ dest m, optimizeOnce J = some (dest, m) →
      ∀ o ∈ dest.iobject, o.Pairwise (fun a b => a.1 < b.1)) := by
  constructor
  · intro oid J' hfin
    refine ⟨sortEntries (internKeys J kvs).1, ?_, sortEntries_pairwise_le _,
      fun hnd => sortEntries_strict _ (internKeys_ids_nodup kvs J hnd)⟩
    have hob := internObject_spec (internKeys J kvs).2
      (sortEntries (internKeys J kvs).1)
    simp only [finalizeObject] at hfin
    rw [Prod.mk.injEq] at hfin
    obtain ⟨h1, h2⟩ := hfin
    have hoid : (internObject (internKeys J kvs).2
        (sortEntries (internKeys J kvs).1)).1 = oid := by
      injection h1
    rw [← h2, ← hoid]
    exact hob.1
  · intro hwf dest m hsome
    obtain ⟨hm, hdest⟩ := optimizeOnce_some J dest m hsome
    have hwfd : WF dest := by
      rw [hdest]
      exact wf_optimizeOnce_dest J hwf _ _ _
        (optimizedMappingStrings_perm J) (optimizedMappingArrays_perm J)
        (optimizedMappingObjects_perm J) m (by rw [hm]) (by rw [hm])
        (by rw [hm])
    exact hwfd.objectsSorted

/-- C3 counterexample: finalizing a collected map with the key `"a"` twice
stores the slice `[(0, null), (0, true)]`, which is not strictly sorted by
key id. -/
theorem object_sortedness_counterexample :
    ¬ ∀ o ∈ ((finalizeObject ⟨[], [], []⟩
        [("a", IValue.null), ("a", IValue.bool true)]).2).iobject,
      o.Pairwise (fun a b => a.1 < b.1) := by
  decide

/-! ## The canonical string order -/

theorem charListLe_total (a : List Char) : ∀ b : List Char,
    charListLe a b = true ∨ charListLe b a = true := by
  induction a with
  | nil =>
    intro b
    exact Or.inl rfl
  | cons x xs ih =>
    intro b
    cases b with
    | nil => exact Or.inr rfl
    | cons y ys =>
      simp only [charListLe, Bool.or_eq_true, decide_eq_true_eq,
        Bool.and_eq_true]
      rcases Nat.lt_trichotomy x.toNat y.toNat with h | h | h
      · exact Or.inl (Or.inl h)
      · rcases ih ys with h2 | h2
        · exact Or.inl (Or.inr ⟨h, h2⟩)
        · exact Or.inr (Or.inr ⟨h.symm, h2⟩)
      · exact Or.inr (Or.inl h)

theorem charListLe_trans (a : List Char) : ∀ (b c : List Char),
    charListLe a b = true → charListLe b c = true →
    charListLe a c = true := by
  induction a with
  | nil =>
    intro b c hab hbc
    rfl
  | cons x xs ih =>
    intro b c hab hbc
    cases b with
    | nil => simp [charListLe] at hab
    | cons y ys =>
      cases c with
      | nil => simp [charListLe] at hbc
      | cons z zs =>
        simp only [charListLe, Bool.or_eq_true, decide_eq_true_eq,
          Bool.and_eq_true] at hab hbc ⊢
        rcases hab with h1 | ⟨h1, h2⟩ <;> rcases hbc with g1 | ⟨g1, g2⟩
        · exact Or.inl (Nat.lt_trans h1 g1)
        · exact Or.inl (by omega)
        · exact Or.inl (by omega)
        · exact Or.inr ⟨h1.trans g1, ih ys zs h2 g2⟩

theorem strLe_total (a b : String) : strLe a b = true ∨ strLe b a = true := by
  unfold strLe
  simp only [Bool.or_eq_true, decide_eq_true_eq, Bool.and_eq_true]
  rcases Nat.lt_trichotomy a.utf8ByteSize b.utf8ByteSize with h | h | h
  · exact Or.inl (Or.inl h)
  · rcases charListLe_total a.data b.data with hc | hc
    · exact Or.inl (Or.inr ⟨h, hc⟩)
    · exact Or.inr (Or.inr ⟨h.symm, hc⟩)
  · exact Or.inr (Or.inl h)

theorem strLe_trans (a b c : String) (hab : strLe a b = true)
    (hbc : strLe b c = true) : strLe a c = true := by
  unfold strLe at hab hbc ⊢
  simp only [Bool.or_eq_true, decide_eq_true_eq, Bool.and_eq_true]
    at hab hbc ⊢
  rcases hab with h1 | ⟨h1, h2⟩ <;> rcases hbc with g1 | ⟨g1, g2⟩
  · exact Or.inl (Nat.lt_trans h1 g1)
  · exact Or.inl (by omega)
  · exact Or.inl (by omega)
  · exact Or.inr ⟨h1.trans g1, charListLe_trans _ _ _ h2 g2⟩

/-- C5: the optimized string arena is sorted by `(length, lexicographic)`
and is a permutation of the source arena; for the concrete arena
`["", "zzzz", "a", "bb"]`, `optimize` stores `["", "a", "bb", "zzzz"]` and
`count_remapped_strings()` is 3. -/
theorem canonical_string_ordering :
    (∀ J : Jinterners,
      ((optimizedMappingStrings J).map
          (fun i => J.string.getD i "")).Pairwise
        (fun a b => strLe a b = true) ∧
      List.Perm
        ((optimizedMappingStrings J).map (fun i => J.string.getD i ""))
        J.string) ∧
    ((optimize ⟨["", "zzzz", "a", "bb"], [], []⟩ none 2).map
        (fun p => (p.1.string, p.2.countRemappedStrings)) =
      some (["", "a", "bb", "zzzz"], 3)) := by
  constructor
  · intro J
    constructor
    · have hp := stableSortBy_pairwise
        (fun i j => strLe (J.string.getD i "") (J.string.getD j ""))
        (fun i j => strLe_total _ _)
        (fun i j k => strLe_trans _ _ _)
        (List.range J.string.length)
      exact List.pairwise_map.mpr hp
    · exact map_getD_perm _ _ _ (optimizedMappingStrings_perm J)
  · decide

/-! ## When optimize returns None -/

theorem reverseOf_isIdentity (perm : List Nat) :
    (reverseOf perm).isIdentity = isIdentityPerm perm := by
  unfold reverseOf
  by_cases h : isIdentityPerm perm = true
  · rw [if_pos h, h]
    rfl
  · rw [if_neg h]
    cases hb : isIdentityPerm perm with
    | false => rfl
    | true => exact absurd hb h

theorem optimizeOnceStrings_eq_none_iff (J : Jinterners) :
    optimizeOnceStrings J = none ↔
      isIdentityPerm (optimizedMappingStrings J) = true := by
  have hc : MappingStrings.isIdentity ⟨reverseOf (optimizedMappingStrings J)⟩
      = isIdentityPerm (optimizedMappingStrings J) := by
    show (reverseOf _).isIdentity = _
    exact reverseOf_isIdentity _
  simp only [optimizeOnceStrings]
  rw [hc]
  by_cases hid : isIdentityPerm (optimizedMappingStrings J) = true
  · rw [if_pos hid]
    simp [hid]
  · rw [if_neg hid]
    simp [hid]

theorem optimizeOnceNoStrings_eq_none_iff (J : Jinterners) :
    optimizeOnceNoStrings J = none ↔
      (isIdentityPerm (optimizedMappingArrays J) = true ∧
       isIdentityPerm (optimizedMappingObjects J) = true) := by
  have hc : MappingNoStrings.isIdentity
        ⟨reverseOf (optimizedMappingArrays J),
         reverseOf (optimizedMappingObjects J)⟩
      = (isIdentityPerm (optimizedMappingArrays J) &&
         isIdentityPerm (optimizedMappingObjects J)) := by
    show ((reverseOf _).isIdentity && (reverseOf _).isIdentity) = _
    rw [reverseOf_isIdentity, reverseOf_isIdentity]
  simp only [optimizeOnceNoStrings]
  rw [hc]
  by_cases hid : (isIdentityPerm (optimizedMappingArrays J) &&
      isIdentityPerm (optimizedMappingObjects J)) = true
  · rw [if_pos hid]
    rw [Bool.and_eq_true] at hid
    simp [hid.1, hid.2]
  · rw [if_neg hid]
    rw [Bool.and_eq_true] at hid
    constructor
    · intro habs
      exact Option.noConfusion habs
    · intro hcon
      exact absurd ⟨hcon.1, hcon.2⟩ hid

theorem optimizeLoop_isSome (self : Jinterners) (limit : Option Nat) :
    ∀ (fuel i : Nat) (p : Jinterners × Mapping),
      ∃ q, optimizeLoop self limit fuel i (some p) = some q := by
  intro fuel
  induction fuel with
  | zero =>
    intro i p
    exact ⟨p, rfl⟩
  | succ fuel ih =>
    intro i p
    obtain ⟨j, m⟩ := p
    simp only [optimizeLoop]
    split
    · exact ⟨(j, m), rfl⟩
    · cases hN : optimizeOnceNoStrings j with
      | none =>
        simp only [hN]
        exact ⟨(j, m), rfl⟩
      | some q =>
        obtain ⟨ia, io, mno⟩ := q
        simp only [hN]
        exact ih (i + 1) _

/-- C6: `optimize` returns `None` exactly when the iteration limit is zero
or all three per-kind canonical orderings are already the identity (nothing
to do); being a plain `Option` return there is no failure path. -/
theorem optimize_none_iff (self : Jinterners) (limit : Option Nat)
    (fuel : Nat) (hfuel : 1 ≤ fuel) :
    (optimize self limit fuel = none ↔
      (limit = some 0 ∨
        (isIdentityPerm (optimizedMappingStrings self) = true ∧
         isIdentityPerm (optimizedMappingArrays self) = true ∧
         isIdentityPerm (optimizedMappingObjects self) = true))) := by
  obtain ⟨fuel', rfl⟩ : ∃ k, fuel = k + 1 := ⟨fuel - 1, by omega⟩
  simp only [optimize]
  by_cases hl : limit = some 0
  · rw [if_pos hl]
    simp [hl]
  · rw [if_neg hl]
    cases hS : optimizeOnceStrings self with
    | some p =>
      have hns : ¬ isIdentityPerm (optimizedMappingStrings self) = true := by
        intro hid
        rw [← optimizeOnceStrings_eq_none_iff] at hid
        rw [hid] at hS
        cases hS
      simp only [Option.map_some']
      obtain ⟨q, hq⟩ := optimizeLoop_isSome self limit (fuel' + 1) 0
        (p.1, p.2.promote p.1.iarray.length p.1.iobject.length)
      rw [hq]
      simp [hl, hns]
    | none =>
      simp only [Option.map_none']
      simp only [optimizeLoop]
      rw [if_neg hl]
      cases hN : optimizeOnceNoStrings self with
      | none =>
        simp only [hN]
        have hSid := (optimizeOnceStrings_eq_none_iff self).mp hS
        have hNid := (optimizeOnceNoStrings_eq_none_iff self).mp hN
        simp [hSid, hNid.1, hNid.2]
      | some q =>
        obtain ⟨ia, io, mno⟩ := q
        simp only [hN]
        obtain ⟨r, hr⟩ := optimizeLoop_isSome self limit fuel' (0 + 1)
          (⟨self.string, ia, io⟩, mno.promote self.string.length)
        rw [hr]
        have hNne : ¬(isIdentityPerm (optimizedMappingArrays self) = true ∧
            isIdentityPerm (optimizedMappingObjects self) = true) := by
          intro hid
          have hcontra := (optimizeOnceNoStrings_eq_none_iff self).mpr hid
          rw [hcontra] at hN
          cases hN
        constructor
        · intro habs
          exact Option.noConfusion habs
        · rintro (h0 | ⟨hs2, ha2, ho2⟩)
          · exact absurd h0 hl
          · exact absurd ⟨ha2, ho2⟩ hNne

/-- C6 witness: an already-canonical arena gives `None` with no limit, and
the characterization holds at fuel 2. -/
theorem optimize_none_iff_witness :
    optimize ⟨["", "a", "bb"], [], []⟩ none 2 = none ↔
      ((none : Option Nat) = some 0 ∨
        (isIdentityPerm
            (optimizedMappingStrings ⟨["", "a", "bb"], [], []⟩) = true ∧
         isIdentityPerm
            (optimizedMappingArrays ⟨["", "a", "bb"], [], []⟩) = true ∧
         isIdentityPerm
            (optimizedMappingObjects ⟨["", "a", "bb"], [], []⟩) = true)) :=
  optimize_none_iff ⟨["", "a", "bb"], [], []⟩ none 2 (by decide)

/-- C1: optimize preserves values: for a well-formed source context,
whenever `optimize_once` or the iterated `optimize` returns
`Some((dest, mapping))`, every handle `h` valid in the source looks up to
the same JSON value in the source as `mapping.map(h)` does in the
destination. -/
theorem optimize_preserves_values (J : Jinterners) (hwf : WF J)
    (limit : Option Nat) (fuel : Nat) (h : IValue) (hv : validIn J h) :
    (∀ dest m, optimizeOnce J = some (dest, m) →
      ∀ f, lookupV J f h = lookupV dest f (m.map h)) ∧
    (∀ dest m, optimize J limit fuel = some (dest, m) →
      ∀ f, lookupV J f h = lookupV dest f (m.map h)) := by
  constructor
  · intro dest m hsome f
    obtain ⟨hm, hdest⟩ := optimizeOnce_some J dest m hsome
    have hps := optimizedMappingStrings_perm J
    have hpa := optimizedMappingArrays_perm J
    have hpo := optimizedMappingObjects_perm J
    have hMs : m.string = reverseOf (optimizedMappingStrings J) := by
      rw [hm]
    have hMa : m.iarray = reverseOf (optimizedMappingArrays J) := by
      rw [hm]
    have hMo : m.iobject = reverseOf (optimizedMappingObjects J) := by
      rw [hm]
    have hst := stepRel_of_perms J _ _ _ hps hpa hpo m hMs hMa hMo
    rw [← hdest] at hst
    rw [mapping_map_eq_mapIds]
    exact (step_preserves hst hwf f h hv).symm
  · intro dest m hsome f
    have hinv := optimizeLoop_inv J hwf limit fuel 0 _ (optInv_init J hwf)
    simp only [optimize] at hsome
    split at hsome
    · cases hsome
    · rw [hsome] at hinv
      obtain ⟨_, _, _, _, _, _, _, _, hlook⟩ := hinv
      exact (hlook f h hv).symm

/-- C1 witness: a concrete context with one string handle reachable through
an array inside an object; both pass shapes preserve its lookup. -/
theorem optimize_preserves_values_witness :
    (∀ dest m,
      optimizeOnce ⟨["", "zzzz", "a"], [[.string 1]], [[(0, .array 0)]]⟩ =
        some (dest, m) →
      ∀ f, lookupV ⟨["", "zzzz", "a"], [[.string 1]], [[(0, .array 0)]]⟩
          f (.object 0) = lookupV dest f (m.map (.object 0))) ∧
    (∀ dest m,
      optimize ⟨["", "zzzz", "a"], [[.string 1]], [[(0, .array 0)]]⟩ none 2 =
        some (dest, m) →
      ∀ f, lookupV ⟨["", "zzzz", "a"], [[.string 1]], [[(0, .array 0)]]⟩
          f (.object 0) = lookupV dest f (m.map (.object 0))) :=
  optimize_preserves_values ⟨["", "zzzz", "a"], [[.string 1]], [[(0, .array 0)]]⟩
    ⟨by decide, by decide, by decide, by decide, by decide⟩
    none 2 (.object 0) (by decide)

end Jinterner
